import Mathlib

/-!
# hashset.h: a linear-probing set of byte sequences

Shallow embedding of `src/hashset.h` (header-only C library).

Modelling conventions.

* A byte buffer `(void *item, size_t item_size)` is the list of its `item_size` bytes.
* `hashset_bucket_t **buckets` is a list of optional buckets; `NULL` is `none`.
  Buckets are moved between slots by reference, which is value passing here.
* `size_t` fields are natural numbers.  The hash arithmetic wraps modulo `2 ^ 64`
  and `used--` at zero wraps to `2 ^ 64 - 1` as in C.  `cap * HASHSET_GROW_RATE` and
  `used++` are not reduced: the slot array holds `cap` eight-byte pointers inside a
  64-bit address space, hence `cap < 2 ^ 61`, and `used` never exceeds `cap`.
* `used >= cap * HASHSET_LOAD_FACTOR` compares against `cap * 0.75` in `double`;
  for operands below `2 ^ 53` this is exactly `3 * cap ≤ 4 * used`.
* `exit(1)` inside `HS_ASSERT` is the result `Fault.fatal`; a `while` loop that does
  not leave within the stated number of iterations is the result `Fault.hang`.
* `malloc`/`calloc` outcomes are an input of `hashset_insert` (`Alloc`).
-/

namespace Hashset

set_option maxRecDepth 100000

/-- Outcome of a call that does not return to its caller. -/
inductive Fault where
  | fatal
  | hang
deriving DecidableEq, Repr

deriving instance DecidableEq for Except

/-- The C struct `hashset_bucket_t`. -/
structure hashset_bucket_t where
  item : List UInt8
  item_size : Nat
  hash : Nat
deriving DecidableEq, Repr

/-- The C struct `hashset_t`. -/
structure hashset_t where
  buckets : List (Option hashset_bucket_t)
  cap : Nat
  used : Nat
deriving DecidableEq, Repr

/-- Which of the allocations made by one `hashset_insert` call succeed:
`calloc` of the slot array in `hashset__grow`, `malloc` of the bucket struct and
`malloc` of the payload in `hashset__bucket_new`. -/
structure Alloc where
  slots : Bool
  bucket : Bool
  payload : Bool
deriving DecidableEq, Repr

/-- Every allocation succeeds. -/
def Alloc.all : Alloc := ⟨true, true, true⟩

/-- The engine `hashset_t hs = {0}`. -/
def hashset_zero : hashset_t := ⟨[], 0, 0⟩

def HASHSET_INIT_CAP : Nat := 1024

def HASHSET_GROW_RATE : Nat := 2

/-- Numerator of `HASHSET_LOAD_FACTOR = 0.75`. -/
def HASHSET_LOAD_NUM : Nat := 3

/-- Denominator of `HASHSET_LOAD_FACTOR = 0.75`. -/
def HASHSET_LOAD_DEN : Nat := 4

/-- Width modulus of `size_t`. -/
def SIZE_MOD : Nat := 2 ^ 64

/-- The read `buckets[i]`. -/
def slotAt (buckets : List (Option hashset_bucket_t)) (i : Nat) : Option hashset_bucket_t :=
  buckets.getD i none

/-- The `while(item_size-- > 0)` loop of `hashset__hash`. -/
def hashset__hash_loop : List UInt8 → Nat → Nat
  | [], hash => hash
  | b :: bytes, hash =>
    hashset__hash_loop bytes (((hash ^^^ b.toNat) * 0x00000100000001b3) % SIZE_MOD)

def hashset__hash (item : List UInt8) : Nat :=
  hashset__hash_loop item 0xcbf29ce484222325

/-- Byte equality: `memcmp` over `a_size` bytes after the size test. -/
def hashset__equal (a : List UInt8) (a_size : Nat) (b : List UInt8) (b_size : Nat) : Bool :=
  if a_size ≠ b_size then false else decide (a.take a_size = b.take a_size)

def hashset__bucket_new (al : Alloc) (item : List UInt8) (item_size : Nat) (hash : Nat) :
    Option hashset_bucket_t :=
  if !al.bucket then none
  else if !al.payload then none
  else some ⟨item.take item_size, item_size, hash⟩

/-- The loop `while(buckets[hash] != NULL) hash = (hash + 1) % cap;` run for at most
`fuel` iterations. -/
def hashset__find_free_bucket_loop :
    Nat → List (Option hashset_bucket_t) → Nat → Nat → Option Nat
  | 0, _, _, _ => none
  | fuel + 1, buckets, cap, hash =>
    match slotAt buckets hash with
    | none => some hash
    | some _ => hashset__find_free_bucket_loop fuel buckets cap ((hash + 1) % cap)

/-- Linear probe for the first empty slot.  The array is not modified while the
loop runs, so a probe that has not left after `cap` tests has seen every slot
occupied and never leaves. -/
def hashset__find_free_bucket (buckets : List (Option hashset_bucket_t)) (cap hash : Nat) :
    Option Nat :=
  hashset__find_free_bucket_loop cap buckets cap hash

/-- The `for` loop of `hashset__rehash` over the old slots, in index order. -/
def hashset__rehash_loop (new_cap : Nat) :
    List (Option hashset_bucket_t) → List (Option hashset_bucket_t) →
      Except Fault (List (Option hashset_bucket_t))
  | [], new_buckets => .ok new_buckets
  | none :: rest, new_buckets => hashset__rehash_loop new_cap rest new_buckets
  | some cur_bucket :: rest, new_buckets =>
    match hashset__find_free_bucket new_buckets new_cap (cur_bucket.hash % new_cap) with
    | none => .error .hang
    | some new_pos =>
      hashset__rehash_loop new_cap rest (new_buckets.set new_pos (some cur_bucket))

def hashset__rehash (hs : hashset_t) (new_cap : Nat)
    (new_buckets : List (Option hashset_bucket_t)) :
    Except Fault (List (Option hashset_bucket_t)) :=
  if hs.cap = 0 then .ok new_buckets
  else hashset__rehash_loop new_cap (hs.buckets.take hs.cap) new_buckets

def hashset__grow (al : Alloc) (hs : hashset_t) : Except Fault (Int × hashset_t) :=
  let new_cap := max HASHSET_INIT_CAP (hs.cap * HASHSET_GROW_RATE)
  if !al.slots then .ok (-1, hs)
  else
    match hashset__rehash hs new_cap (List.replicate new_cap none) with
    | .error e => .error e
    | .ok new_buckets => .ok (0, { hs with cap := new_cap, buckets := new_buckets })

/-- How the probe loop of `hashset_insert` is left. -/
inductive InsertProbe where
  | present
  | full
  | free (hash : Nat)
deriving DecidableEq, Repr

/-- The `while` loop of `hashset_insert`, lines 151-157, run for at most `fuel`
iterations.  Started with `hash = start < cap` it makes at most `cap` iterations: the
`cap`-th one leaves through the wrap test. -/
def hashset_insert_loop :
    Nat → List (Option hashset_bucket_t) → Nat → List UInt8 → Nat → Nat → Option InsertProbe
  | 0, _, _, _, _, _ => none
  | fuel + 1, buckets, cap, item, start, hash =>
    match slotAt buckets hash with
    | none => some (.free hash)
    | some b =>
      if hashset__equal b.item b.item_size item item.length then some .present
      else
        let hash1 := (hash + 1) % cap
        if hash1 = start then some .full
        else hashset_insert_loop fuel buckets cap item start hash1

/-- Lines 147-166 of `hashset_insert`: everything after the growth check.  The
growth check guarantees `cap > 0` here (with `cap = 0` it always asks for growth, and a
failed growth has already returned). -/
def hashset_insert_body (al : Alloc) (hs : hashset_t) (item : List UInt8) :
    Except Fault (Int × hashset_t) :=
  let raw_hash := hashset__hash item
  let start := raw_hash % hs.cap
  match hashset_insert_loop hs.cap hs.buckets hs.cap item start start with
  | none => .error .hang
  | some .present => .ok (0, hs)
  | some .full => .ok (-1, hs)
  | some (.free hash) =>
    match hashset__bucket_new al item item.length raw_hash with
    | none => .ok (-1, hs)
    | some bucket =>
      .ok (0, { hs with buckets := hs.buckets.set hash (some bucket), used := hs.used + 1 })

def hashset_insert (al : Alloc) (hs : hashset_t) (item : List UInt8) :
    Except Fault (Int × hashset_t) :=
  if HASHSET_LOAD_NUM * hs.cap ≤ HASHSET_LOAD_DEN * hs.used then
    match hashset__grow al hs with
    | .error e => .error e
    | .ok (rc, hs1) =>
      if rc ≠ 0 then .ok (-1, hs1) else hashset_insert_body al hs1 item
  else hashset_insert_body al hs item

/-- How the search loop of `hashset_remove` is left: by `return -1` on wrap-around,
or at index `hash` (through `break` or through the loop condition). -/
inductive RemoveSearch where
  | wrapped
  | stop (hash : Nat)
deriving DecidableEq, Repr

/-- The first `while` loop of `hashset_remove`, lines 177-184, run for at most `fuel`
iterations; like the loop of `hashset_insert` it needs at most `cap` of them. -/
def hashset_remove_search :
    Nat → List (Option hashset_bucket_t) → Nat → List UInt8 → Nat → Nat → Option RemoveSearch
  | 0, _, _, _, _, _ => none
  | fuel + 1, buckets, cap, item, start, hash =>
    match slotAt buckets hash with
    | none => some (.stop hash)
    | some b =>
      if hashset__equal b.item b.item_size item item.length then some (.stop hash)
      else
        let hash1 := (hash + 1) % cap
        if hash1 = start then some .wrapped
        else hashset_remove_search fuel buckets cap item start hash1

/-- The relocation loop of `hashset_remove`, lines 192-201, run for at most `fuel`
iterations.  Its inner loop is, word for word, the loop of
`hashset__find_free_bucket`.  `hashset_remove` hands over `cap` iterations;
`shift_spec` below shows that the loop leaves within them on every table that
satisfies the representation invariant. -/
def hashset_remove_shift :
    Nat → List (Option hashset_bucket_t) → Nat → Nat →
      Except Fault (List (Option hashset_bucket_t))
  | 0, _, _, _ => .error .hang
  | fuel + 1, buckets, cap, next =>
    match slotAt buckets next with
    | none => .ok buckets
    | some b =>
      let buckets1 := buckets.set next none
      match hashset__find_free_bucket buckets1 cap (b.hash % cap) with
      | none => .error .hang
      | some new_pos =>
        hashset_remove_shift fuel (buckets1.set new_pos (some b)) cap ((next + 1) % cap)

def hashset_remove (hs : hashset_t) (item : List UInt8) : Except Fault (Int × hashset_t) :=
  if hs.cap = 0 then .error .fatal
  else
    let start := hashset__hash item % hs.cap
    match hashset_remove_search hs.cap hs.buckets hs.cap item start start with
    | none => .error .hang
    | some .wrapped => .ok (-1, hs)
    | some (.stop hash) =>
      match slotAt hs.buckets hash with
      | none => .ok (-1, hs)
      | some _ =>
        let buckets1 := hs.buckets.set hash none
        let used1 := if hs.used = 0 then SIZE_MOD - 1 else hs.used - 1
        match hashset_remove_shift hs.cap buckets1 hs.cap ((hash + 1) % hs.cap) with
        | .error e => .error e
        | .ok buckets2 => .ok (0, { hs with buckets := buckets2, used := used1 })

def hashset_size (hs : hashset_t) : Except Fault Nat :=
  if hs.cap = 0 then .error .fatal else .ok hs.used

/-- The `while` loop of `hashset_contains`, lines 220-225, run for at most `fuel`
iterations.  It has no wrap test: after `cap` iterations without leaving it has seen
every slot occupied by another byte sequence and goes round forever. -/
def hashset_contains_loop :
    Nat → List (Option hashset_bucket_t) → Nat → List UInt8 → Nat → Option Bool
  | 0, _, _, _, _ => none
  | fuel + 1, buckets, cap, item, hash =>
    match slotAt buckets hash with
    | none => some false
    | some b =>
      if hashset__equal b.item b.item_size item item.length then some true
      else hashset_contains_loop fuel buckets cap item ((hash + 1) % cap)

def hashset_contains (hs : hashset_t) (item : List UInt8) : Except Fault Bool :=
  if hs.cap = 0 then .error .fatal
  else
    match hashset_contains_loop hs.cap
        hs.buckets hs.cap item (hashset__hash item % hs.cap) with
    | none => .error .hang
    | some r => .ok r

/-! ## Specification vocabulary -/

/-- One call of `hashset_insert` or `hashset_remove`. -/
inductive Op where
  | insert (item : List UInt8)
  | remove (item : List UInt8)
deriving DecidableEq, Repr

/-- One call with every allocation succeeding; the return code is dropped. -/
def step (hs : hashset_t) : Op → Except Fault hashset_t
  | .insert item =>
    match hashset_insert Alloc.all hs item with
    | .error e => .error e
    | .ok (_, hs1) => .ok hs1
  | .remove item =>
    match hashset_remove hs item with
    | .error e => .error e
    | .ok (_, hs1) => .ok hs1

/-- A sequence of calls, left to right, stopping at the first call that does not
return. -/
def run (hs : hashset_t) : List Op → Except Fault hashset_t
  | [] => .ok hs
  | op :: ops =>
    match step hs op with
    | .error e => .error e
    | .ok hs1 => run hs1 ops

/-- The state after a call sequence on the zero-initialised engine (the zero
engine itself when some call does not return). -/
def exec (ops : List Op) : hashset_t :=
  match run hashset_zero ops with
  | .ok hs => hs
  | .error _ => hashset_zero

/-- The 8-byte little-endian encoding of `i`. -/
def item8 (i : Nat) : List UInt8 :=
  [UInt8.ofNat (i % 256), UInt8.ofNat (i / 256 % 256), 0, 0, 0, 0, 0, 0]

/-- The call sequence `insert (item8 0), ..., insert (item8 (n - 1))`. -/
def fillOps (n : Nat) : List Op :=
  (List.range n).map (fun i => Op.insert (item8 i))

/-- States produced from the zero-initialised engine by calls that returned;
an insert may have had any of its allocations fail. -/
inductive Reachable : hashset_t → Prop where
  | zero : Reachable hashset_zero
  | insert (al : Alloc) (hs : hashset_t) (item : List UInt8) (rc : Int) (hs1 : hashset_t) :
      Reachable hs → hashset_insert al hs item = .ok (rc, hs1) → Reachable hs1
  | remove (hs : hashset_t) (item : List UInt8) (rc : Int) (hs1 : hashset_t) :
      Reachable hs → hashset_remove hs item = .ok (rc, hs1) → Reachable hs1

/-- Number of `+1 (mod n)` steps from slot `a` to slot `b`. -/
def cdist (n a b : Nat) : Nat := if a ≤ b then b - a else b + n - a

/-- Every slot met when walking from `a` (inclusive) to `b` (exclusive) is occupied. -/
def OccBefore (t : List (Option hashset_bucket_t)) (n a b : Nat) : Prop :=
  ∀ x, x < n → cdist n a x < cdist n a b → slotAt t x ≠ none

/-- As `OccBefore`, but slot `h` is allowed to be empty. -/
def OccBeforeBut (t : List (Option hashset_bucket_t)) (n h a b : Nat) : Prop :=
  ∀ x, x < n → cdist n a x < cdist n a b → x ≠ h → slotAt t x ≠ none

/-- The buckets of a slot array, in index order. -/
def items (t : List (Option hashset_bucket_t)) : List hashset_bucket_t := t.reduceOption

/-- The stored byte sequences of a slot array. -/
def keys (t : List (Option hashset_bucket_t)) : List (List UInt8) :=
  (items t).map (fun b => b.item)

/-- A bucket records the length and the hash of its own payload. -/
def BucketOK (b : hashset_bucket_t) : Prop :=
  b.item_size = b.item.length ∧ b.hash = hashset__hash b.item

/-- Reachability of every bucket of a table of `n` slots from its home slot. -/
def Reach (t : List (Option hashset_bucket_t)) (n : Nat) : Prop :=
  ∀ p b, slotAt t p = some b → BucketOK b ∧ OccBefore t n (b.hash % n) p

/-- The representation invariant of the engine. -/
structure Inv (hs : hashset_t) : Prop where
  len : hs.buckets.length = hs.cap
  cap4 : hs.cap % 4 = 0
  count : hs.used = (items hs.buckets).length
  load : 4 * hs.used ≤ 3 * hs.cap
  reach : Reach hs.buckets hs.cap
  nodup : (keys hs.buckets).Nodup

/-- Slot `p` is where a linear scan for `X` that starts at slot `h` comes to rest:
every slot before it holds some other byte sequence, and `p` itself is empty or
holds `X`. -/
def ScanStop (t : List (Option hashset_bucket_t)) (n : Nat) (X : List UInt8) (h p : Nat) :
    Prop :=
  p < n ∧
  (∀ x, x < n → cdist n h x < cdist n h p → ∃ b, slotAt t x = some b ∧ b.item ≠ X) ∧
  (slotAt t p = none ∨ ∃ b, slotAt t p = some b ∧ b.item = X)

/-- Loop invariant of the relocation loop of `hashset_remove`.  `q` is the slot the
removed bucket was taken from, `e` a slot that is empty throughout, `h` the one
hole inside the run and `x` the loop variable `next`. -/
structure ShiftInv (t : List (Option hashset_bucket_t)) (n q e h x : Nat) : Prop where
  len : t.length = n
  q_lt : q < n
  e_lt : e < n
  h_lt : h < n
  x_lt : x < n
  empty_e : slotAt t e = none
  empty_h : slotAt t h = none
  order : cdist n q h < cdist n q x
  bound : cdist n q x ≤ cdist n q e
  filled : ∀ y, y < n → cdist n q h < cdist n q y → cdist n q y < cdist n q x →
    slotAt t y ≠ none
  weak : ∀ p b, slotAt t p = some b → BucketOK b ∧ OccBeforeBut t n h (b.hash % n) p
  strong : ∀ p b, slotAt t p = some b → cdist n q h < cdist n q p →
    cdist n q p < cdist n q x → OccBefore t n (b.hash % n) p

/-- The 64-bit FNV-1a hash as the specification words it: a left fold over the bytes,
xor then multiply by the prime, modulo `2 ^ 64`, started at the offset basis. -/
def fnv1a64_spec (bs : List UInt8) : Nat :=
  bs.foldl (fun h b => ((h ^^^ b.toNat) * 0x00000100000001b3) % 2 ^ 64) 0xcbf29ce484222325

/-- The reachability invariant, slot by slot: an occupied slot `p` lies `d` steps
after the home slot of its bucket, and the slots `home, home + 1, ..., home + d = p`
(indices modulo `cap`) are all occupied. -/
def PathOccupied (hs : hashset_t) : Prop :=
  ∀ p b, slotAt hs.buckets p = some b →
    ∃ d, d < hs.cap ∧ p = (b.hash % hs.cap + d) % hs.cap ∧
      ∀ k, k ≤ d → slotAt hs.buckets ((b.hash % hs.cap + k) % hs.cap) ≠ none

/-- The uniqueness invariant: two occupied slots whose payloads `hashset__equal`
accepts are the same slot. -/
def UniquePayloads (hs : hashset_t) : Prop :=
  ∀ p q b c, slotAt hs.buckets p = some b → slotAt hs.buckets q = some c →
    hashset__equal b.item b.item_size c.item c.item_size = true → p = q

/-- Replay of a call sequence on a mathematical finite set. -/
def replay : List Op → Finset (List UInt8) → Finset (List UInt8)
  | [], s => s
  | .insert item :: ops, s => replay ops (insert item s)
  | .remove item :: ops, s => replay ops (s.erase item)

/-! ## Cyclic index arithmetic -/

theorem cdist_cases (n a b : Nat) :
    (a ≤ b ∧ cdist n a b = b - a) ∨ (b < a ∧ cdist n a b = b + n - a) := by
  unfold cdist
  by_cases h : a ≤ b
  · left; simp [h]
  · right; simp [h]; omega

theorem succ_mod_cases (n a : Nat) (h : a < n) :
    (a + 1 < n ∧ (a + 1) % n = a + 1) ∨ (a + 1 = n ∧ (a + 1) % n = 0) := by
  by_cases h1 : a + 1 < n
  · left; exact ⟨h1, Nat.mod_eq_of_lt h1⟩
  · right
    have h2 : a + 1 = n := by omega
    exact ⟨h2, by rw [h2]; exact Nat.mod_self n⟩

theorem succ_mod_lt (n a : Nat) (h : a < n) : (a + 1) % n < n :=
  Nat.mod_lt _ (by omega)

/-! ## Slot arrays -/

theorem slotAt_set (t : List (Option hashset_bucket_t)) (p q : Nat)
    (v : Option hashset_bucket_t) (hp : p < t.length) :
    slotAt (t.set p v) q = if p = q then v else slotAt t q := by
  unfold slotAt
  simp only [List.getD_eq_getElem?_getD, List.getElem?_set]
  by_cases h : p = q
  · subst h; simp [hp]
  · simp [h]

theorem slotAt_lt (t : List (Option hashset_bucket_t)) (p : Nat) (b : hashset_bucket_t)
    (h : slotAt t p = some b) : p < t.length := by
  by_contra hc
  unfold slotAt at h
  rw [List.getD_eq_default _ _ (by omega)] at h
  exact Option.noConfusion h

theorem mem_items_iff (t : List (Option hashset_bucket_t)) (b : hashset_bucket_t) :
    b ∈ items t ↔ ∃ p, slotAt t p = some b := by
  unfold items
  rw [List.reduceOption_mem_iff, List.mem_iff_getElem?]
  constructor
  · rintro ⟨p, hp⟩
    exact ⟨p, by simp [slotAt, hp]⟩
  · rintro ⟨p, hp⟩
    have hlt := slotAt_lt t p b hp
    refine ⟨p, ?_⟩
    unfold slotAt at hp
    rw [List.getD_eq_getElem _ _ hlt] at hp
    rw [List.getElem?_eq_getElem hlt, hp]

theorem items_set_some (t : List (Option hashset_bucket_t)) (p : Nat) (b : hashset_bucket_t)
    (hp : p < t.length) (he : slotAt t p = none) :
    (items (t.set p (some b))).Perm (b :: items t) := by
  induction t generalizing p with
  | nil => simp at hp
  | cons a t ih =>
    cases p with
    | zero =>
      have ha : a = none := by simpa [slotAt] using he
      subst ha
      simp [items, List.reduceOption_cons_of_some, List.reduceOption_cons_of_none]
    | succ p =>
      have hp1 : p < t.length := by simpa using hp
      have he1 : slotAt t p = none := by simpa [slotAt] using he
      have h := ih p hp1 he1
      cases a with
      | none =>
        simpa [items, List.reduceOption_cons_of_none] using h
      | some c =>
        simp only [items, List.set_cons_succ, List.reduceOption_cons_of_some] at h ⊢
        exact (List.Perm.cons c h).trans (List.Perm.swap b c _)

theorem items_set_none (t : List (Option hashset_bucket_t)) (p : Nat) (b : hashset_bucket_t)
    (he : slotAt t p = some b) :
    (items t).Perm (b :: items (t.set p none)) := by
  induction t generalizing p with
  | nil => simp [slotAt] at he
  | cons a t ih =>
    cases p with
    | zero =>
      have ha : a = some b := by simpa [slotAt] using he
      subst ha
      simp [items, List.reduceOption_cons_of_some, List.reduceOption_cons_of_none]
    | succ p =>
      have he1 : slotAt t p = some b := by simpa [slotAt] using he
      have h := ih p he1
      cases a with
      | none =>
        simpa [items, List.reduceOption_cons_of_none] using h
      | some c =>
        simp only [items, List.set_cons_succ, List.reduceOption_cons_of_some] at h ⊢
        exact (List.Perm.cons c h).trans (List.Perm.swap b c _)

theorem exists_empty (t : List (Option hashset_bucket_t))
    (h : (items t).length < t.length) : ∃ e, e < t.length ∧ slotAt t e = none := by
  induction t with
  | nil => simp at h
  | cons a t ih =>
    cases a with
    | none => exact ⟨0, by simp, by simp [slotAt]⟩
    | some c =>
      have h1 : (items t).length < t.length := by
        simpa [items, List.reduceOption_cons_of_some] using h
      obtain ⟨e, he, hs⟩ := ih h1
      exact ⟨e + 1, by simpa using he, by simpa [slotAt] using hs⟩

/-! ## The probe loops -/

theorem hashset__equal_iff (b : hashset_bucket_t) (X : List UInt8)
    (hb : b.item_size = b.item.length) :
    hashset__equal b.item b.item_size X X.length = true ↔ b.item = X := by
  unfold hashset__equal
  by_cases h : b.item_size = X.length
  · have h2 : b.item.length = X.length := by rw [← hb]; exact h
    simp only [h, ne_eq, not_true_eq_false, if_false, decide_eq_true_eq, List.take_length]
    rw [← h2, List.take_length]
  · simp only [ne_eq, h, not_false_eq_true, if_true]
    constructor
    · intro hf; cases hf
    · intro he; exact absurd (by rw [hb, he]) h

theorem find_free_loop_spec (t : List (Option hashset_bucket_t)) (n : Nat) :
    ∀ (fuel h e : Nat), h < n → e < n → slotAt t e = none → cdist n h e < fuel →
      ∃ p, hashset__find_free_bucket_loop fuel t n h = some p ∧ p < n ∧
        slotAt t p = none ∧ OccBefore t n h p := by
  intro fuel
  induction fuel with
  | zero => intro h e _ _ _ hd; omega
  | succ fuel ih =>
    intro h e hh he hse hd
    cases hs : slotAt t h with
    | none =>
      refine ⟨h, by simp [hashset__find_free_bucket_loop, hs], hh, hs, ?_⟩
      intro x _ hlt
      have := cdist_cases n h h
      omega
    | some b =>
      have hne : h ≠ e := by
        rintro rfl
        rw [hse] at hs; cases hs
      have hh1 := succ_mod_lt n h hh
      have hsm := succ_mod_cases n h hh
      generalize hq : (h + 1) % n = h1 at hh1 hsm
      have c1 := cdist_cases n h e
      have c2 := cdist_cases n h1 e
      obtain ⟨p, hp, hpn, hps, hocc⟩ := ih h1 e hh1 he hse (by omega)
      refine ⟨p, by simp [hashset__find_free_bucket_loop, hs, hq, hp], hpn, hps, ?_⟩
      intro x hx hlt
      by_cases hxh : x = h
      · subst hxh; rw [hs]; simp
      · apply hocc x hx
        have hph : p ≠ h := by
          rintro rfl
          rw [hps] at hs; cases hs
        have c3 := cdist_cases n h x
        have c4 := cdist_cases n h p
        have c5 := cdist_cases n h1 x
        have c6 := cdist_cases n h1 p
        omega

theorem find_free_spec (t : List (Option hashset_bucket_t)) (n h e : Nat)
    (hh : h < n) (he : e < n) (hse : slotAt t e = none) :
    ∃ p, hashset__find_free_bucket t n h = some p ∧ p < n ∧
      slotAt t p = none ∧ OccBefore t n h p := by
  have c := cdist_cases n h e
  exact find_free_loop_spec t n n h e hh he hse (by omega)

theorem firstFree_unique (t : List (Option hashset_bucket_t)) (n h p q : Nat)
    (hh : h < n) (hp : p < n) (hq : q < n)
    (hsp : slotAt t p = none) (hsq : slotAt t q = none)
    (hop : OccBefore t n h p) (hoq : OccBefore t n h q) : p = q := by
  by_contra hne
  have c1 := cdist_cases n h p
  have c2 := cdist_cases n h q
  rcases Nat.lt_trichotomy (cdist n h p) (cdist n h q) with hlt | heq | hgt
  · exact hoq p hp hlt hsp
  · omega
  · exact hop q hq hgt hsq

theorem scanStop_here (t : List (Option hashset_bucket_t)) (n : Nat) (X : List UInt8)
    (h : Nat) (hh : h < n)
    (hs : slotAt t h = none ∨ ∃ b, slotAt t h = some b ∧ b.item = X) :
    ScanStop t n X h h := by
  refine ⟨hh, ?_, hs⟩
  intro x _ hlt
  have := cdist_cases n h h
  omega

theorem scanStop_step (t : List (Option hashset_bucket_t)) (n : Nat) (X : List UInt8)
    (h p : Nat) (b : hashset_bucket_t) (hh : h < n)
    (hs : slotAt t h = some b) (hb : b.item ≠ X)
    (hst : ScanStop t n X ((h + 1) % n) p) : ScanStop t n X h p := by
  obtain ⟨hp, hbefore, hat⟩ := hst
  have hh1 := succ_mod_lt n h hh
  have hsm := succ_mod_cases n h hh
  generalize (h + 1) % n = h1 at hh1 hsm hbefore
  refine ⟨hp, ?_, hat⟩
  intro x hx hlt
  by_cases hxh : x = h
  · subst hxh; exact ⟨b, hs, hb⟩
  · apply hbefore x hx
    have hph : p ≠ h := by
      rintro rfl
      rcases hat with h0 | ⟨c, hc, hcx⟩
      · rw [h0] at hs; cases hs
      · rw [hc] at hs; cases hs; exact hb hcx
    have c3 := cdist_cases n h x
    have c4 := cdist_cases n h p
    have c5 := cdist_cases n h1 x
    have c6 := cdist_cases n h1 p
    omega

theorem contains_loop_spec (t : List (Option hashset_bucket_t)) (n : Nat) (X : List UInt8)
    (hok : ∀ p b, slotAt t p = some b → b.item_size = b.item.length) :
    ∀ (fuel h e : Nat), h < n → e < n → slotAt t e = none → cdist n h e < fuel →
      ∃ p, ScanStop t n X h p ∧
        hashset_contains_loop fuel t n X h = some (slotAt t p).isSome := by
  intro fuel
  induction fuel with
  | zero => intro h e _ _ _ hd; omega
  | succ fuel ih =>
    intro h e hh he hse hd
    cases hs : slotAt t h with
    | none =>
      exact ⟨h, scanStop_here t n X h hh (Or.inl hs),
        by simp [hashset_contains_loop, hs]⟩
    | some b =>
      by_cases hb : b.item = X
      · refine ⟨h, scanStop_here t n X h hh (Or.inr ⟨b, hs, hb⟩), ?_⟩
        have := (hashset__equal_iff b X (hok h b hs)).mpr hb
        simp [hashset_contains_loop, hs, this]
      · have hne : h ≠ e := by
          rintro rfl
          rw [hse] at hs; cases hs
        have hneq : hashset__equal b.item b.item_size X X.length = false := by
          cases hq : hashset__equal b.item b.item_size X X.length
          · rfl
          · exact absurd ((hashset__equal_iff b X (hok h b hs)).mp hq) hb
        have hh1 := succ_mod_lt n h hh
        have hsm := succ_mod_cases n h hh
        have c1 := cdist_cases n h e
        have c2 := cdist_cases n ((h + 1) % n) e
        obtain ⟨p, hp, hr⟩ := ih ((h + 1) % n) e hh1 he hse (by omega)
        refine ⟨p, scanStop_step t n X h p b hh hs hb hp, ?_⟩
        simp [hashset_contains_loop, hs, hneq, hr]

theorem equal_false_of_ne (b : hashset_bucket_t) (X : List UInt8)
    (hb : b.item_size = b.item.length) (hne : b.item ≠ X) :
    hashset__equal b.item b.item_size X X.length = false := by
  cases hq : hashset__equal b.item b.item_size X X.length
  · rfl
  · exact absurd ((hashset__equal_iff b X hb).mp hq) hne

theorem insert_loop_spec (t : List (Option hashset_bucket_t)) (n : Nat) (X : List UInt8)
    (start e : Nat) (hstart : start < n) (he : e < n) (hse : slotAt t e = none)
    (hok : ∀ p b, slotAt t p = some b → b.item_size = b.item.length) :
    ∀ (fuel h : Nat), h < n → cdist n h e < fuel → cdist n start h ≤ cdist n start e →
      ∃ p, ScanStop t n X h p ∧
        hashset_insert_loop fuel t n X start h =
          some (if (slotAt t p).isSome then InsertProbe.present else InsertProbe.free p) := by
  intro fuel
  induction fuel with
  | zero => intro h _ hd; omega
  | succ fuel ih =>
    intro h hh hd hle
    cases hs : slotAt t h with
    | none =>
      exact ⟨h, scanStop_here t n X h hh (Or.inl hs),
        by simp [hashset_insert_loop, hs]⟩
    | some b =>
      by_cases hb : b.item = X
      · refine ⟨h, scanStop_here t n X h hh (Or.inr ⟨b, hs, hb⟩), ?_⟩
        have := (hashset__equal_iff b X (hok h b hs)).mpr hb
        simp [hashset_insert_loop, hs, this]
      · have hne : h ≠ e := by
          rintro rfl
          rw [hse] at hs; cases hs
        have hneq := equal_false_of_ne b X (hok h b hs) hb
        have hh1 := succ_mod_lt n h hh
        have hsm := succ_mod_cases n h hh
        have c1 := cdist_cases n h e
        have c2 := cdist_cases n ((h + 1) % n) e
        have c3 := cdist_cases n start h
        have c4 := cdist_cases n start e
        have c5 := cdist_cases n start ((h + 1) % n)
        have hwrap : (h + 1) % n ≠ start := by omega
        obtain ⟨p, hp, hr⟩ := ih ((h + 1) % n) hh1 (by omega) (by omega)
        refine ⟨p, scanStop_step t n X h p b hh hs hb hp, ?_⟩
        simp [hashset_insert_loop, hs, hneq, hwrap, hr]

theorem remove_search_spec (t : List (Option hashset_bucket_t)) (n : Nat) (X : List UInt8)
    (start e : Nat) (hstart : start < n) (he : e < n) (hse : slotAt t e = none)
    (hok : ∀ p b, slotAt t p = some b → b.item_size = b.item.length) :
    ∀ (fuel h : Nat), h < n → cdist n h e < fuel → cdist n start h ≤ cdist n start e →
      ∃ p, ScanStop t n X h p ∧
        hashset_remove_search fuel t n X start h = some (RemoveSearch.stop p) := by
  intro fuel
  induction fuel with
  | zero => intro h _ hd; omega
  | succ fuel ih =>
    intro h hh hd hle
    cases hs : slotAt t h with
    | none =>
      exact ⟨h, scanStop_here t n X h hh (Or.inl hs),
        by simp [hashset_remove_search, hs]⟩
    | some b =>
      by_cases hb : b.item = X
      · refine ⟨h, scanStop_here t n X h hh (Or.inr ⟨b, hs, hb⟩), ?_⟩
        have := (hashset__equal_iff b X (hok h b hs)).mpr hb
        simp [hashset_remove_search, hs, this]
      · have hne : h ≠ e := by
          rintro rfl
          rw [hse] at hs; cases hs
        have hneq := equal_false_of_ne b X (hok h b hs) hb
        have hh1 := succ_mod_lt n h hh
        have hsm := succ_mod_cases n h hh
        have c1 := cdist_cases n h e
        have c2 := cdist_cases n ((h + 1) % n) e
        have c3 := cdist_cases n start h
        have c4 := cdist_cases n start e
        have c5 := cdist_cases n start ((h + 1) % n)
        have hwrap : (h + 1) % n ≠ start := by omega
        obtain ⟨p, hp, hr⟩ := ih ((h + 1) % n) hh1 (by omega) (by omega)
        refine ⟨p, scanStop_step t n X h p b hh hs hb hp, ?_⟩
        simp [hashset_remove_search, hs, hneq, hwrap, hr]

/-! ## What a scan tells about membership -/

theorem mem_keys_iff (t : List (Option hashset_bucket_t)) (X : List UInt8) :
    X ∈ keys t ↔ ∃ p b, slotAt t p = some b ∧ b.item = X := by
  unfold keys
  rw [List.mem_map]
  constructor
  · rintro ⟨b, hb, hx⟩
    obtain ⟨p, hp⟩ := (mem_items_iff t b).mp hb
    exact ⟨p, b, hp, hx⟩
  · rintro ⟨p, b, hp, hx⟩
    exact ⟨b, (mem_items_iff t b).mpr ⟨p, hp⟩, hx⟩

theorem scanStop_full (t : List (Option hashset_bucket_t)) (n : Nat) (X : List UInt8)
    (p : Nat) (hlen : t.length = n) (hn : 0 < n) (hr : Reach t n)
    (hst : ScanStop t n X (hashset__hash X % n) p) (hp : slotAt t p = none) :
    X ∉ keys t := by
  intro hmem
  obtain ⟨q, b, hq, hbx⟩ := (mem_keys_iff t X).mp hmem
  obtain ⟨hpn, hbefore, _⟩ := hst
  obtain ⟨⟨_, hhash⟩, hocc⟩ := hr q b hq
  have hqn : q < n := hlen ▸ slotAt_lt t q b hq
  rw [hhash, hbx] at hocc
  have hh : hashset__hash X % n < n := Nat.mod_lt _ hn
  generalize hashset__hash X % n = h at hh hocc hbefore
  have c1 := cdist_cases n h p
  have c2 := cdist_cases n h q
  rcases Nat.lt_trichotomy (cdist n h p) (cdist n h q) with hlt | heq | hgt
  · exact hocc p hpn hlt hp
  · have : p = q := by omega
    subst this
    rw [hp] at hq; cases hq
  · obtain ⟨c, hc, hcx⟩ := hbefore q hqn hgt
    rw [hq] at hc; cases hc
    exact hcx hbx

theorem scanStop_occ (t : List (Option hashset_bucket_t)) (n : Nat) (X : List UInt8)
    (h p : Nat) (hst : ScanStop t n X h p) : OccBefore t n h p := by
  intro x hx hlt
  obtain ⟨b, hb, _⟩ := hst.2.1 x hx hlt
  rw [hb]; simp

/-! ## Placing a bucket at the end of its probe run -/

theorem occBefore_mono (t t1 : List (Option hashset_bucket_t)) (n a b : Nat)
    (h : OccBefore t n a b) (hm : ∀ x, x < n → slotAt t x ≠ none → slotAt t1 x ≠ none) :
    OccBefore t1 n a b :=
  fun x hx hlt => hm x hx (h x hx hlt)

theorem reach_place (t : List (Option hashset_bucket_t)) (n p : Nat) (b : hashset_bucket_t)
    (hlen : t.length = n) (hp : p < n) (hr : Reach t n) (hb : BucketOK b)
    (hocc : OccBefore t n (b.hash % n) p) :
    Reach (t.set p (some b)) n := by
  have hmono : ∀ x, x < n → slotAt t x ≠ none → slotAt (t.set p (some b)) x ≠ none := by
    intro x _ hx
    rw [slotAt_set t p x _ (hlen ▸ hp)]
    by_cases hpx : p = x
    · simp [hpx]
    · simpa [hpx] using hx
  intro q c hq
  rw [slotAt_set t p q _ (hlen ▸ hp)] at hq
  by_cases hpq : p = q
  · subst hpq
    simp only [if_true, Option.some.injEq] at hq
    subst hq
    exact ⟨hb, occBefore_mono t _ n _ _ hocc hmono⟩
  · simp only [hpq, if_false] at hq
    obtain ⟨h1, h2⟩ := hr q c hq
    exact ⟨h1, occBefore_mono t _ n _ _ h2 hmono⟩

/-! ## Growth -/

theorem slotAt_replicate (n p : Nat) : slotAt (List.replicate n none) p = none := by
  unfold slotAt
  by_cases h : p < n
  · rw [List.getD_eq_getElem _ _ (by simpa using h)]; simp
  · rw [List.getD_eq_default _ _ (by simpa using h)]

theorem items_replicate (n : Nat) : items (List.replicate n none) = [] := by
  induction n with
  | zero => rfl
  | succ n ih => simpa [items, List.replicate_succ, List.reduceOption_cons_of_none] using ih

theorem reach_replicate (n : Nat) : Reach (List.replicate n none) n := by
  intro p b hp
  rw [slotAt_replicate] at hp; cases hp

theorem rehash_loop_spec (N : Nat) (hN : 0 < N) :
    ∀ (L nb : List (Option hashset_bucket_t)), nb.length = N → Reach nb N →
      (items nb).length + (items L).length < N → (∀ b, b ∈ items L → BucketOK b) →
      ∃ nb1, hashset__rehash_loop N L nb = .ok nb1 ∧ nb1.length = N ∧ Reach nb1 N ∧
        (items nb1).Perm (items L ++ items nb) := by
  intro L
  induction L with
  | nil =>
    intro nb hlen hr _ _
    exact ⟨nb, rfl, hlen, hr, by simp [items]⟩
  | cons a L ih =>
    intro nb hlen hr hcount hok
    cases a with
    | none =>
      have hi : items (none :: L) = items L := by
        simp [items, List.reduceOption_cons_of_none]
      rw [hi] at hcount hok ⊢
      obtain ⟨nb1, h1, h2, h3, h4⟩ := ih nb hlen hr hcount hok
      exact ⟨nb1, by simpa [hashset__rehash_loop] using h1, h2, h3, h4⟩
    | some c =>
      have hi : items (some c :: L) = c :: items L := by
        simp [items, List.reduceOption_cons_of_some]
      rw [hi] at hcount hok ⊢
      simp only [List.length_cons] at hcount
      obtain ⟨e, he, hse⟩ := exists_empty nb (by omega)
      rw [hlen] at he
      obtain ⟨p, hfind, hp, hsp, hocc⟩ :=
        find_free_spec nb N (c.hash % N) e (Nat.mod_lt _ hN) he hse
      have hperm := items_set_some nb p c (hlen ▸ hp) hsp
      have hr1 := reach_place nb N p c hlen hp hr (hok c (List.mem_cons_self _ _)) hocc
      obtain ⟨nb1, h1, h2, h3, h4⟩ := ih (nb.set p (some c)) (by simpa using hlen) hr1
        (by rw [hperm.length_eq]; simp only [List.length_cons]; omega)
        (fun b hb => hok b (List.mem_cons_of_mem _ hb))
      refine ⟨nb1, by simp [hashset__rehash_loop, hfind, h1], h2, h3, ?_⟩
      refine h4.trans ?_
      refine (List.Perm.append_left _ hperm).trans ?_
      simp

theorem grow_spec (al : Alloc) (hs : hashset_t) (hinv : Inv hs) (hal : al.slots = true) :
    ∃ nb, hashset__grow al hs =
        .ok (0, ⟨nb, max HASHSET_INIT_CAP (hs.cap * HASHSET_GROW_RATE), hs.used⟩) ∧
      Inv ⟨nb, max HASHSET_INIT_CAP (hs.cap * HASHSET_GROW_RATE), hs.used⟩ ∧
      (items nb).Perm (items hs.buckets) := by
  obtain ⟨hlen, hcap4, hcount, hload, hreach, hnodup⟩ := hinv
  have hN : 0 < max HASHSET_INIT_CAP (hs.cap * HASHSET_GROW_RATE) := by
    simp [HASHSET_INIT_CAP]
  have key : ∃ nb, hashset__rehash hs (max HASHSET_INIT_CAP (hs.cap * HASHSET_GROW_RATE))
        (List.replicate (max HASHSET_INIT_CAP (hs.cap * HASHSET_GROW_RATE)) none) = .ok nb ∧
      nb.length = max HASHSET_INIT_CAP (hs.cap * HASHSET_GROW_RATE) ∧
      Reach nb (max HASHSET_INIT_CAP (hs.cap * HASHSET_GROW_RATE)) ∧
      (items nb).Perm (items hs.buckets) := by
    by_cases hc : hs.cap = 0
    · refine ⟨_, by simp [hashset__rehash, hc], by simp, reach_replicate _, ?_⟩
      have : hs.buckets = [] := List.length_eq_zero.mp (by rw [hlen, hc])
      rw [this, items_replicate]; rfl
    · have htake : hs.buckets.take hs.cap = hs.buckets := by
        rw [← hlen]; exact List.take_length _
      obtain ⟨nb, h1, h2, h3, h4⟩ := rehash_loop_spec _ hN hs.buckets
        (List.replicate (max HASHSET_INIT_CAP (hs.cap * HASHSET_GROW_RATE)) none)
        (by simp) (reach_replicate _)
        (by
          rw [items_replicate, ← hcount]
          simp only [List.length_nil, HASHSET_INIT_CAP, HASHSET_GROW_RATE]
          omega)
        (fun b hb => by
          obtain ⟨p, hp⟩ := (mem_items_iff _ b).mp hb
          exact (hreach p b hp).1)
      refine ⟨nb, by simp [hashset__rehash, hc, htake, h1], h2, h3, ?_⟩
      simpa [items_replicate] using h4
  obtain ⟨nb, h1, h2, h3, h4⟩ := key
  refine ⟨nb, by simp [hashset__grow, hal, h1], ?_, h4⟩
  refine ⟨h2, ?_, ?_, ?_, h3, ?_⟩
  · simp only [HASHSET_INIT_CAP, HASHSET_GROW_RATE]; omega
  · simp only [hcount]; exact h4.length_eq.symm
  · simp only [HASHSET_INIT_CAP, HASHSET_GROW_RATE]; omega
  · exact (List.Perm.nodup_iff (List.Perm.map _ h4)).mpr hnodup

/-! ## Lookup -/

theorem inv_exists_empty (hs : hashset_t) (hinv : Inv hs) (hcap : 0 < hs.cap) :
    ∃ e, e < hs.cap ∧ slotAt hs.buckets e = none := by
  obtain ⟨e, he, hse⟩ := exists_empty hs.buckets (by
    rw [← hinv.count, hinv.len]
    have := hinv.load
    omega)
  exact ⟨e, hinv.len ▸ he, hse⟩

theorem inv_size_ok (hs : hashset_t) (hinv : Inv hs) :
    ∀ p b, slotAt hs.buckets p = some b → b.item_size = b.item.length :=
  fun p b hp => (hinv.reach p b hp).1.1

theorem contains_spec (hs : hashset_t) (Y : List UInt8) (hinv : Inv hs) (hcap : 0 < hs.cap) :
    hashset_contains hs Y = .ok (decide (Y ∈ keys hs.buckets)) := by
  obtain ⟨e, he, hse⟩ := inv_exists_empty hs hinv hcap
  have hh : hashset__hash Y % hs.cap < hs.cap := Nat.mod_lt _ hcap
  have c := cdist_cases hs.cap (hashset__hash Y % hs.cap) e
  obtain ⟨p, hst, hr⟩ := contains_loop_spec hs.buckets hs.cap Y (inv_size_ok hs hinv)
    hs.cap (hashset__hash Y % hs.cap) e hh he hse (by omega)
  have hc0 : hs.cap ≠ 0 := by omega
  cases hp : slotAt hs.buckets p with
  | none =>
    have hnot := scanStop_full hs.buckets hs.cap Y p hinv.len hcap hinv.reach hst hp
    simp [hashset_contains, hc0, hr, hp, hnot]
  | some b =>
    have hbY : b.item = Y := by
      rcases hst.2.2 with h0 | ⟨c, hc, hcY⟩
      · rw [h0] at hp; cases hp
      · rw [hc] at hp; cases hp; exact hcY
    have hmem : Y ∈ keys hs.buckets := (mem_keys_iff _ _).mpr ⟨p, b, hp, hbY⟩
    simp [hashset_contains, hc0, hr, hp, hmem]

/-! ## Insertion -/

theorem insert_loop_top (hs : hashset_t) (X : List UInt8) (hinv : Inv hs) (hcap : 0 < hs.cap) :
    (X ∈ keys hs.buckets ∧
      hashset_insert_loop hs.cap hs.buckets hs.cap X (hashset__hash X % hs.cap)
        (hashset__hash X % hs.cap) = some InsertProbe.present) ∨
    (X ∉ keys hs.buckets ∧ ∃ p, p < hs.cap ∧ slotAt hs.buckets p = none ∧
      OccBefore hs.buckets hs.cap (hashset__hash X % hs.cap) p ∧
      hashset_insert_loop hs.cap hs.buckets hs.cap X (hashset__hash X % hs.cap)
        (hashset__hash X % hs.cap) = some (InsertProbe.free p)) := by
  obtain ⟨e, he, hse⟩ := inv_exists_empty hs hinv hcap
  have hh : hashset__hash X % hs.cap < hs.cap := Nat.mod_lt _ hcap
  have c := cdist_cases hs.cap (hashset__hash X % hs.cap) e
  have c0 := cdist_cases hs.cap (hashset__hash X % hs.cap) (hashset__hash X % hs.cap)
  obtain ⟨p, hst, hr⟩ := insert_loop_spec hs.buckets hs.cap X (hashset__hash X % hs.cap) e
    hh he hse (inv_size_ok hs hinv) hs.cap (hashset__hash X % hs.cap) hh (by omega) (by omega)
  cases hp : slotAt hs.buckets p with
  | none =>
    right
    refine ⟨scanStop_full hs.buckets hs.cap X p hinv.len hcap hinv.reach hst hp, p, hst.1, hp,
      scanStop_occ _ _ _ _ _ hst, ?_⟩
    simpa [hp] using hr
  | some b =>
    left
    have hbX : b.item = X := by
      rcases hst.2.2 with h0 | ⟨c, hc, hcX⟩
      · rw [h0] at hp; cases hp
      · rw [hc] at hp; cases hp; exact hcX
    exact ⟨(mem_keys_iff _ _).mpr ⟨p, b, hp, hbX⟩, by simpa [hp] using hr⟩

theorem insert_body_present (al : Alloc) (hs : hashset_t) (X : List UInt8) (hinv : Inv hs)
    (hcap : 0 < hs.cap) (hX : X ∈ keys hs.buckets) :
    hashset_insert_body al hs X = .ok (0, hs) := by
  rcases insert_loop_top hs X hinv hcap with ⟨_, h⟩ | ⟨hn, _⟩
  · simp [hashset_insert_body, h]
  · exact absurd hX hn

theorem insert_body_fail (al : Alloc) (hs : hashset_t) (X : List UInt8) (hinv : Inv hs)
    (hcap : 0 < hs.cap) (hX : X ∉ keys hs.buckets)
    (hal : al.bucket = false ∨ al.payload = false) :
    hashset_insert_body al hs X = .ok (-1, hs) := by
  rcases insert_loop_top hs X hinv hcap with ⟨hm, _⟩ | ⟨_, p, _, _, _, h⟩
  · exact absurd hm hX
  · have hb : hashset__bucket_new al X X.length (hashset__hash X) = none := by
      unfold hashset__bucket_new
      rcases hal with h1 | h1 <;> simp [h1]
    simp [hashset_insert_body, h, hb]

theorem insert_body_new (al : Alloc) (hs : hashset_t) (X : List UInt8) (hinv : Inv hs)
    (hload : 4 * hs.used < 3 * hs.cap) (hX : X ∉ keys hs.buckets)
    (hal1 : al.bucket = true) (hal2 : al.payload = true) :
    ∃ nb, hashset_insert_body al hs X = .ok (0, ⟨nb, hs.cap, hs.used + 1⟩) ∧
      Inv ⟨nb, hs.cap, hs.used + 1⟩ ∧ (keys nb).Perm (X :: keys hs.buckets) := by
  have hcap : 0 < hs.cap := by omega
  rcases insert_loop_top hs X hinv hcap with ⟨hm, _⟩ | ⟨_, p, hp, hsp, hocc, h⟩
  · exact absurd hm hX
  · have hb : hashset__bucket_new al X X.length (hashset__hash X) =
        some ⟨X, X.length, hashset__hash X⟩ := by
      simp [hashset__bucket_new, hal1, hal2]
    have hperm := items_set_some hs.buckets p ⟨X, X.length, hashset__hash X⟩
      (hinv.len ▸ hp) hsp
    have hkperm : (keys (hs.buckets.set p (some ⟨X, X.length, hashset__hash X⟩))).Perm
        (X :: keys hs.buckets) := by
      simpa [keys] using List.Perm.map (fun b : hashset_bucket_t => b.item) hperm
    refine ⟨hs.buckets.set p (some ⟨X, X.length, hashset__hash X⟩), ?_, ?_, hkperm⟩
    · simp [hashset_insert_body, h, hb]
    · refine ⟨by simpa using hinv.len, hinv.cap4, ?_, ?_, ?_, ?_⟩
      · simp only [hperm.length_eq, List.length_cons, hinv.count]
      · have := hinv.cap4
        simp only
        omega
      · exact reach_place hs.buckets hs.cap p _ hinv.len hp hinv.reach ⟨rfl, rfl⟩ hocc
      · exact (List.Perm.nodup_iff hkperm).mpr (List.nodup_cons.mpr ⟨hX, hinv.nodup⟩)

/-! ## Removal: the relocation loop -/

theorem slotAt_set2 (t : List (Option hashset_bucket_t)) (x h y : Nat)
    (v w : Option hashset_bucket_t) (hx : x < t.length) (hh : h < t.length) :
    slotAt ((t.set x v).set h w) y = if h = y then w else if x = y then v else slotAt t y := by
  rw [slotAt_set _ _ _ _ (by simpa using hh), slotAt_set _ _ _ _ hx]

theorem shift_done (t : List (Option hashset_bucket_t)) (n q e h x : Nat)
    (hinv : ShiftInv t n q e h x) (hsx : slotAt t x = none) : Reach t n := by
  intro p b hp
  obtain ⟨hb, hweak⟩ := hinv.weak p b hp
  refine ⟨hb, ?_⟩
  have hpn : p < n := hinv.len ▸ slotAt_lt t p b hp
  have hqn := hinv.q_lt
  have hhn := hinv.h_lt
  have hxn := hinv.x_lt
  have hord := hinv.order
  have hm : b.hash % n < n := Nat.mod_lt _ (by omega)
  by_cases hpath : cdist n (b.hash % n) h < cdist n (b.hash % n) p
  · have hxh : x ≠ h := by
      rintro rfl
      omega
    have hxp : x ≠ p := by
      rintro rfl
      rw [hsx] at hp; cases hp
    have hnx : ¬ cdist n (b.hash % n) x < cdist n (b.hash % n) p :=
      fun hlt => hweak x hxn hlt hxh hsx
    have key : cdist n q h < cdist n q p ∧ cdist n q p < cdist n q x := by
      generalize b.hash % n = m at hm hpath hnx
      have c1 := cdist_cases n m h
      have c2 := cdist_cases n m p
      have c3 := cdist_cases n m x
      have c4 := cdist_cases n q h
      have c5 := cdist_cases n q p
      have c6 := cdist_cases n q x
      omega
    exact hinv.strong p b hp key.1 key.2
  · intro y hy hlt
    apply hweak y hy hlt
    rintro rfl
    exact hpath hlt

theorem shift_find_move (t : List (Option hashset_bucket_t)) (n q e h x : Nat)
    (b : hashset_bucket_t) (hinv : ShiftInv t n q e h x) (hsx : slotAt t x = some b)
    (hpath : cdist n (b.hash % n) h < cdist n (b.hash % n) x) :
    hashset__find_free_bucket (t.set x none) n (b.hash % n) = some h := by
  have hxn := hinv.x_lt
  have hhn := hinv.h_lt
  have hm : b.hash % n < n := Nat.mod_lt _ (by omega)
  have hxl : x < t.length := hinv.len ▸ hxn
  have hxh : x ≠ h := by
    rintro rfl
    rw [hinv.empty_h] at hsx; cases hsx
  obtain ⟨p, hfind, hp, hsp, hocc⟩ := find_free_spec (t.set x none) n (b.hash % n) x hm hxn
    (by rw [slotAt_set _ _ _ _ hxl]; simp)
  have hsh : slotAt (t.set x none) h = none := by
    rw [slotAt_set _ _ _ _ hxl]; simp [hxh, hinv.empty_h]
  have hoh : OccBefore (t.set x none) n (b.hash % n) h := by
    intro y hy hlt
    have hyx : x ≠ y := by
      rintro rfl
      omega
    have hyh : y ≠ h := by
      rintro rfl
      omega
    rw [slotAt_set _ _ _ _ hxl]
    simp only [hyx, if_false]
    exact (hinv.weak x b hsx).2 y hy (by omega) hyh
  rw [hfind, firstFree_unique _ n _ p h hm hp hhn hsp hsh hocc hoh]

theorem shift_find_stay (t : List (Option hashset_bucket_t)) (n q e h x : Nat)
    (b : hashset_bucket_t) (hinv : ShiftInv t n q e h x) (hsx : slotAt t x = some b)
    (hpath : ¬ cdist n (b.hash % n) h < cdist n (b.hash % n) x) :
    hashset__find_free_bucket (t.set x none) n (b.hash % n) = some x ∧
      OccBefore t n (b.hash % n) x := by
  have hxn := hinv.x_lt
  have hhn := hinv.h_lt
  have hm : b.hash % n < n := Nat.mod_lt _ (by omega)
  have hxl : x < t.length := hinv.len ▸ hxn
  obtain ⟨p, hfind, hp, hsp, hocc⟩ := find_free_spec (t.set x none) n (b.hash % n) x hm hxn
    (by rw [slotAt_set _ _ _ _ hxl]; simp)
  have hsx1 : slotAt (t.set x none) x = none := by
    rw [slotAt_set _ _ _ _ hxl]; simp
  have hot : OccBefore t n (b.hash % n) x := by
    intro y hy hlt
    have hyh : y ≠ h := by
      rintro rfl
      exact hpath hlt
    exact (hinv.weak x b hsx).2 y hy hlt hyh
  have hox : OccBefore (t.set x none) n (b.hash % n) x := by
    intro y hy hlt
    have hyx : x ≠ y := by
      rintro rfl
      omega
    rw [slotAt_set _ _ _ _ hxl]
    simp only [hyx, if_false]
    exact hot y hy hlt
  exact ⟨by rw [hfind, firstFree_unique _ n _ p x hm hp hxn hsp hsx1 hocc hox], hot⟩

theorem shift_move (t : List (Option hashset_bucket_t)) (n q e h x : Nat)
    (b : hashset_bucket_t) (hinv : ShiftInv t n q e h x) (hsx : slotAt t x = some b)
    (hpath : cdist n (b.hash % n) h < cdist n (b.hash % n) x) :
    ShiftInv ((t.set x none).set h (some b)) n q e x ((x + 1) % n) := by
  have hxn := hinv.x_lt
  have hhn := hinv.h_lt
  have hqn := hinv.q_lt
  have hen := hinv.e_lt
  have hord := hinv.order
  have hbound := hinv.bound
  have hxl : x < t.length := hinv.len ▸ hxn
  have hhl : h < t.length := hinv.len ▸ hhn
  have hxh : x ≠ h := by
    rintro rfl
    rw [hinv.empty_h] at hsx; cases hsx
  have hxe : x ≠ e := by
    rintro rfl
    rw [hinv.empty_e] at hsx; cases hsx
  have hx1 := succ_mod_lt n x hxn
  have hsm := succ_mod_cases n x hxn
  have c1 := cdist_cases n q h
  have c2 := cdist_cases n q x
  have c3 := cdist_cases n q e
  have c4 := cdist_cases n q ((x + 1) % n)
  have hhe : h ≠ e := by
    rintro rfl
    omega
  have hslot : ∀ y, slotAt ((t.set x none).set h (some b)) y =
      if h = y then some b else if x = y then none else slotAt t y :=
    fun y => slotAt_set2 t x h y _ _ hxl hhl
  refine ⟨by simpa using hinv.len, hqn, hen, hxn, hx1, ?_, ?_, by omega, by omega, ?_, ?_, ?_⟩
  · rw [hslot]; simp [hhe, hxe, hinv.empty_e]
  · rw [hslot]; simp [Ne.symm hxh]
  · intro y hy h1 h2
    have c5 := cdist_cases n q y
    omega
  · intro p c hp
    rw [hslot] at hp
    by_cases hhp : h = p
    · subst hhp
      simp only [if_true, Option.some.injEq] at hp
      subst hp
      refine ⟨(hinv.weak x b hsx).1, ?_⟩
      intro y hy hlt hyx
      have hyh : y ≠ h := by
        rintro rfl
        omega
      rw [hslot]
      simp only [Ne.symm hyh, Ne.symm hyx, if_false]
      exact (hinv.weak x b hsx).2 y hy (by omega) hyh
    · simp only [hhp, if_false] at hp
      by_cases hxp : x = p
      · simp [hxp] at hp
      · simp only [hxp, if_false] at hp
        obtain ⟨hb, hw⟩ := hinv.weak p c hp
        refine ⟨hb, ?_⟩
        intro y hy hlt hyx
        rw [hslot]
        by_cases hhy : h = y
        · simp [hhy]
        · simp only [hhy, Ne.symm hyx, if_false]
          exact hw y hy hlt (Ne.symm hhy)
  · intro p c hp h1 h2
    have c5 := cdist_cases n q p
    have hpn : p < n := by
      have := slotAt_lt _ p c hp
      simpa [hinv.len] using this
    omega

theorem shift_stay (t : List (Option hashset_bucket_t)) (n q e h x : Nat)
    (b : hashset_bucket_t) (hinv : ShiftInv t n q e h x) (hsx : slotAt t x = some b)
    (hocc : OccBefore t n (b.hash % n) x) :
    ShiftInv ((t.set x none).set x (some b)) n q e h ((x + 1) % n) := by
  have hxn := hinv.x_lt
  have hhn := hinv.h_lt
  have hqn := hinv.q_lt
  have hen := hinv.e_lt
  have hord := hinv.order
  have hbound := hinv.bound
  have hxl : x < t.length := hinv.len ▸ hxn
  have hxe : x ≠ e := by
    rintro rfl
    rw [hinv.empty_e] at hsx; cases hsx
  have hx1 := succ_mod_lt n x hxn
  have hsm := succ_mod_cases n x hxn
  have c1 := cdist_cases n q h
  have c2 := cdist_cases n q x
  have c3 := cdist_cases n q e
  have c4 := cdist_cases n q ((x + 1) % n)
  have hslot : ∀ y, slotAt ((t.set x none).set x (some b)) y = slotAt t y := by
    intro y
    rw [slotAt_set2 t x x y _ _ hxl hxl]
    by_cases hxy : x = y
    · subst hxy; simp [hsx]
    · simp [hxy]
  refine ⟨by simpa using hinv.len, hqn, hen, hhn, hx1, ?_, ?_, by omega, by omega, ?_, ?_, ?_⟩
  · rw [hslot]; exact hinv.empty_e
  · rw [hslot]; exact hinv.empty_h
  · intro y hy h1 h2
    rw [hslot]
    have c5 := cdist_cases n q y
    by_cases hyx : y = x
    · subst hyx; rw [hsx]; simp
    · exact hinv.filled y hy h1 (by omega)
  · intro p c hp
    rw [hslot] at hp
    obtain ⟨hb, hw⟩ := hinv.weak p c hp
    refine ⟨hb, ?_⟩
    intro y hy hlt hyh
    rw [hslot]
    exact hw y hy hlt hyh
  · intro p c hp h1 h2
    rw [hslot] at hp
    have hpn : p < n := hinv.len ▸ slotAt_lt t p c hp
    have c5 := cdist_cases n q p
    intro y hy hlt
    rw [hslot]
    by_cases hpx : p = x
    · subst hpx
      rw [hsx] at hp; cases hp
      exact hocc y hy hlt
    · exact hinv.strong p c hp h1 (by omega) y hy hlt

theorem shift_spec (n q e : Nat) :
    ∀ (fuel : Nat) (t : List (Option hashset_bucket_t)) (h x : Nat),
      ShiftInv t n q e h x → cdist n x e < fuel →
      ∃ t1, hashset_remove_shift fuel t n x = .ok t1 ∧ t1.length = n ∧ Reach t1 n ∧
        (items t1).Perm (items t) := by
  intro fuel
  induction fuel with
  | zero => intro t h x _ hd; omega
  | succ fuel ih =>
    intro t h x hinv hd
    cases hsx : slotAt t x with
    | none =>
      exact ⟨t, by simp [hashset_remove_shift, hsx], hinv.len,
        shift_done t n q e h x hinv hsx, List.Perm.refl _⟩
    | some b =>
      have hxn := hinv.x_lt
      have hen := hinv.e_lt
      have hxl : x < t.length := hinv.len ▸ hxn
      have hhl : h < t.length := hinv.len ▸ hinv.h_lt
      have hxe : x ≠ e := by
        rintro rfl
        rw [hinv.empty_e] at hsx; cases hsx
      have hxh : x ≠ h := by
        rintro rfl
        rw [hinv.empty_h] at hsx; cases hsx
      have hx1 := succ_mod_lt n x hxn
      have hsm := succ_mod_cases n x hxn
      have c1 := cdist_cases n x e
      have c2 := cdist_cases n ((x + 1) % n) e
      have hp1 := items_set_none t x b hsx
      by_cases hpath : cdist n (b.hash % n) h < cdist n (b.hash % n) x
      · have hfind := shift_find_move t n q e h x b hinv hsx hpath
        have hinv1 := shift_move t n q e h x b hinv hsx hpath
        obtain ⟨t1, hr, hl, hre, hperm⟩ := ih _ x ((x + 1) % n) hinv1 (by omega)
        have hp2 := items_set_some (t.set x none) h b (by simpa using hhl)
          (by rw [slotAt_set _ _ _ _ hxl]; simp [hxh, hinv.empty_h])
        exact ⟨t1, by simp [hashset_remove_shift, hsx, hfind, hr], hl, hre,
          hperm.trans (hp2.trans hp1.symm)⟩
      · obtain ⟨hfind, hocc⟩ := shift_find_stay t n q e h x b hinv hsx hpath
        have hinv1 := shift_stay t n q e h x b hinv hsx hocc
        obtain ⟨t1, hr, hl, hre, hperm⟩ := ih _ h ((x + 1) % n) hinv1 (by omega)
        have hp2 := items_set_some (t.set x none) x b (by simpa using hxl)
          (by rw [slotAt_set _ _ _ _ hxl]; simp)
        exact ⟨t1, by simp only [hashset_remove_shift, hsx, hfind, hr], hl, hre,
          hperm.trans (hp2.trans hp1.symm)⟩

theorem shift_init (t : List (Option hashset_bucket_t)) (n p e : Nat) (b : hashset_bucket_t)
    (hlen : t.length = n) (hr : Reach t n) (hp : slotAt t p = some b)
    (he : e < n) (hse : slotAt t e = none) (hn : 2 ≤ n) :
    ShiftInv (t.set p none) n p e p ((p + 1) % n) := by
  have hpl : p < t.length := slotAt_lt t p b hp
  have hpn : p < n := hlen ▸ hpl
  have hpe : p ≠ e := by
    rintro rfl
    rw [hse] at hp; cases hp
  have hp1 := succ_mod_lt n p hpn
  have hsm := succ_mod_cases n p hpn
  have c1 := cdist_cases n p p
  have c2 := cdist_cases n p e
  have c3 := cdist_cases n p ((p + 1) % n)
  refine ⟨by simpa using hlen, hpn, he, hpn, hp1, ?_, ?_, by omega, by omega, ?_, ?_, ?_⟩
  · rw [slotAt_set _ _ _ _ hpl]; simp [hpe, hse]
  · rw [slotAt_set _ _ _ _ hpl]; simp
  · intro y hy h1 h2
    have c5 := cdist_cases n p y
    omega
  · intro y c hy
    rw [slotAt_set _ _ _ _ hpl] at hy
    by_cases hpy : p = y
    · simp [hpy] at hy
    · simp only [hpy, if_false] at hy
      obtain ⟨hb, ho⟩ := hr y c hy
      refine ⟨hb, ?_⟩
      intro z hz hlt hzp
      rw [slotAt_set _ _ _ _ hpl]
      simp only [Ne.symm hzp, if_false]
      exact ho z hz hlt
  · intro y c hy h1 h2
    have hyn : y < n := by
      have := slotAt_lt _ y c hy
      simpa [hlen] using this
    have c5 := cdist_cases n p y
    omega

/-! ## Removal -/

theorem remove_search_top (hs : hashset_t) (X : List UInt8) (hinv : Inv hs) (hcap : 0 < hs.cap) :
    ∃ p, hashset_remove_search hs.cap hs.buckets hs.cap X (hashset__hash X % hs.cap)
        (hashset__hash X % hs.cap) = some (RemoveSearch.stop p) ∧
      ((X ∉ keys hs.buckets ∧ slotAt hs.buckets p = none) ∨
       (X ∈ keys hs.buckets ∧ ∃ b, slotAt hs.buckets p = some b ∧ b.item = X)) := by
  obtain ⟨e, he, hse⟩ := inv_exists_empty hs hinv hcap
  have hh : hashset__hash X % hs.cap < hs.cap := Nat.mod_lt _ hcap
  have c := cdist_cases hs.cap (hashset__hash X % hs.cap) e
  have c0 := cdist_cases hs.cap (hashset__hash X % hs.cap) (hashset__hash X % hs.cap)
  obtain ⟨p, hst, hr⟩ := remove_search_spec hs.buckets hs.cap X (hashset__hash X % hs.cap) e
    hh he hse (inv_size_ok hs hinv) hs.cap (hashset__hash X % hs.cap) hh (by omega) (by omega)
  refine ⟨p, hr, ?_⟩
  cases hp : slotAt hs.buckets p with
  | none =>
    exact Or.inl ⟨scanStop_full hs.buckets hs.cap X p hinv.len hcap hinv.reach hst hp, rfl⟩
  | some b =>
    have hbX : b.item = X := by
      rcases hst.2.2 with h0 | ⟨c, hc, hcX⟩
      · rw [h0] at hp; cases hp
      · rw [hc] at hp; cases hp; exact hcX
    exact Or.inr ⟨(mem_keys_iff _ _).mpr ⟨p, b, hp, hbX⟩, b, rfl, hbX⟩

theorem remove_absent (hs : hashset_t) (X : List UInt8) (hinv : Inv hs) (hcap : 0 < hs.cap)
    (hX : X ∉ keys hs.buckets) : hashset_remove hs X = .ok (-1, hs) := by
  have hc0 : hs.cap ≠ 0 := by omega
  obtain ⟨p, hr, h | ⟨hm, _⟩⟩ := remove_search_top hs X hinv hcap
  · simp [hashset_remove, hc0, hr, h.2]
  · exact absurd hm hX

theorem remove_present (hs : hashset_t) (X : List UInt8) (hinv : Inv hs) (hcap : 0 < hs.cap)
    (hX : X ∈ keys hs.buckets) :
    ∃ nb, hashset_remove hs X = .ok (0, ⟨nb, hs.cap, hs.used - 1⟩) ∧
      Inv ⟨nb, hs.cap, hs.used - 1⟩ ∧ (keys hs.buckets).Perm (X :: keys nb) := by
  have hc0 : hs.cap ≠ 0 := by omega
  obtain ⟨p, hr, ⟨hn, _⟩ | ⟨_, b, hp, hbX⟩⟩ := remove_search_top hs X hinv hcap
  · exact absurd hX hn
  · obtain ⟨e, he, hse⟩ := inv_exists_empty hs hinv hcap
    have hcap4 := hinv.cap4
    have hpn : p < hs.cap := hinv.len ▸ slotAt_lt _ p b hp
    have hinit := shift_init hs.buckets hs.cap p e b hinv.len hinv.reach hp he hse (by omega)
    have hp1 := succ_mod_lt hs.cap p hpn
    have c1 := cdist_cases hs.cap ((p + 1) % hs.cap) e
    obtain ⟨nb, hshift, hlen, hreach, hperm⟩ :=
      shift_spec hs.cap p e hs.cap _ p ((p + 1) % hs.cap) hinit (by omega)
    have hperm0 := items_set_none hs.buckets p b hp
    have hitems : (items hs.buckets).Perm (b :: items nb) :=
      hperm0.trans (List.Perm.cons b hperm.symm)
    have hkeys : (keys hs.buckets).Perm (X :: keys nb) := by
      have := List.Perm.map (fun c : hashset_bucket_t => c.item) hitems
      simpa [keys, hbX] using this
    have hused : hs.used = (items nb).length + 1 := by
      rw [hinv.count, hitems.length_eq]; rfl
    have hu0 : hs.used ≠ 0 := by omega
    refine ⟨nb, ?_, ?_, hkeys⟩
    · simp [hashset_remove, hc0, hr, hp, hshift, hu0]
    · refine ⟨hlen, hcap4, ?_, ?_, hreach, ?_⟩
      · simp only; omega
      · have := hinv.load
        simp only; omega
      · exact (List.nodup_cons.mp ((List.Perm.nodup_iff hkeys).mp hinv.nodup)).2

/-! ## Every reachable state satisfies the invariant -/

theorem inv_zero : Inv hashset_zero :=
  ⟨rfl, rfl, rfl, by simp [hashset_zero], fun p b hp => by simp [hashset_zero, slotAt] at hp,
    by simp [hashset_zero, keys, items]⟩

theorem insert_body_total (al : Alloc) (hs : hashset_t) (X : List UInt8) (hinv : Inv hs)
    (hload : 4 * hs.used < 3 * hs.cap) :
    ∃ rc hs1, hashset_insert_body al hs X = .ok (rc, hs1) ∧ Inv hs1 ∧ hs1.cap = hs.cap ∧
      ((rc = -1 ∧ hs1 = hs) ∨
       (rc = 0 ∧ X ∈ keys hs.buckets ∧ hs1 = hs) ∨
       (rc = 0 ∧ X ∉ keys hs.buckets ∧ hs1.used = hs.used + 1 ∧
          (keys hs1.buckets).Perm (X :: keys hs.buckets))) := by
  have hcap : 0 < hs.cap := by omega
  by_cases hX : X ∈ keys hs.buckets
  · exact ⟨0, hs, insert_body_present al hs X hinv hcap hX, hinv, rfl, Or.inr (Or.inl ⟨rfl, hX, rfl⟩)⟩
  · by_cases hal : al.bucket = true ∧ al.payload = true
    · obtain ⟨nb, h1, h2, h3⟩ := insert_body_new al hs X hinv hload hX hal.1 hal.2
      exact ⟨0, _, h1, h2, rfl, Or.inr (Or.inr ⟨rfl, hX, rfl, h3⟩)⟩
    · have hal1 : al.bucket = false ∨ al.payload = false := by
        cases h1 : al.bucket <;> cases h2 : al.payload <;> simp_all
      exact ⟨-1, hs, insert_body_fail al hs X hinv hcap hX hal1, hinv, rfl, Or.inl ⟨rfl, rfl⟩⟩

theorem insert_cases (al : Alloc) (hs : hashset_t) (X : List UInt8) (hinv : Inv hs) :
    (3 * hs.cap ≤ 4 * hs.used ∧ al.slots = false ∧ hashset_insert al hs X = .ok (-1, hs)) ∨
    ∃ g, Inv g ∧ 4 * g.used < 3 * g.cap ∧ g.used = hs.used ∧
      (keys g.buckets).Perm (keys hs.buckets) ∧
      ((¬ 3 * hs.cap ≤ 4 * hs.used ∧ g = hs) ∨
       (3 * hs.cap ≤ 4 * hs.used ∧ al.slots = true ∧
          g.cap = max HASHSET_INIT_CAP (hs.cap * HASHSET_GROW_RATE))) ∧
      hashset_insert al hs X = hashset_insert_body al g X := by
  by_cases hg : 3 * hs.cap ≤ 4 * hs.used
  · cases hal : al.slots with
    | false =>
      left
      refine ⟨hg, rfl, ?_⟩
      simp [hashset_insert, HASHSET_LOAD_NUM, HASHSET_LOAD_DEN, hg, hashset__grow, hal]
    | true =>
      right
      obtain ⟨nb, h1, h2, h3⟩ := grow_spec al hs hinv hal
      refine ⟨_, h2, ?_, rfl, ?_, Or.inr ⟨hg, rfl, rfl⟩, ?_⟩
      · have := hinv.load
        simp only [HASHSET_INIT_CAP, HASHSET_GROW_RATE]
        omega
      · simpa [keys] using List.Perm.map (fun b : hashset_bucket_t => b.item) h3
      · simp [hashset_insert, HASHSET_LOAD_NUM, HASHSET_LOAD_DEN, hg, h1]
  · right
    refine ⟨hs, hinv, by omega, rfl, List.Perm.refl _, Or.inl ⟨hg, rfl⟩, ?_⟩
    simp [hashset_insert, HASHSET_LOAD_NUM, HASHSET_LOAD_DEN, hg]

theorem insert_any_spec (al : Alloc) (hs : hashset_t) (X : List UInt8) (hinv : Inv hs) :
    ∃ rc hs1, hashset_insert al hs X = .ok (rc, hs1) ∧ Inv hs1 ∧ (rc = 0 ∨ rc = -1) ∧
      (∀ Y, Y ≠ X → (Y ∈ keys hs1.buckets ↔ Y ∈ keys hs.buckets)) ∧
      (rc = 0 → 0 < hs1.cap ∧ X ∈ keys hs1.buckets) ∧
      (rc = -1 → hs1.used = hs.used ∧ (keys hs1.buckets).Perm (keys hs.buckets)) := by
  rcases insert_cases al hs X hinv with ⟨_, _, h⟩ | ⟨g, hginv, hgload, hgused, hgperm, _, h⟩
  · exact ⟨-1, hs, h, hinv, Or.inr rfl, fun _ _ => Iff.rfl, fun hc => by omega,
      fun _ => ⟨rfl, List.Perm.refl _⟩⟩
  · obtain ⟨rc, hs1, hb, hinv1, hcap, hout⟩ := insert_body_total al g X hginv hgload
    refine ⟨rc, hs1, h.trans hb, hinv1, ?_, ?_, ?_, ?_⟩
    · rcases hout with ⟨h1, _⟩ | ⟨h1, _⟩ | ⟨h1, _⟩ <;> simp [h1]
    · intro Y hY
      rcases hout with ⟨_, h2⟩ | ⟨_, _, h2⟩ | ⟨_, _, _, h2⟩
      · rw [h2]; exact hgperm.mem_iff
      · rw [h2]; exact hgperm.mem_iff
      · rw [h2.mem_iff, List.mem_cons, hgperm.mem_iff]
        simp [hY]
    · intro hrc
      refine ⟨by omega, ?_⟩
      rcases hout with ⟨h1, _⟩ | ⟨_, hm, h2⟩ | ⟨_, _, _, h2⟩
      · omega
      · rw [h2]; exact hm
      · rw [h2.mem_iff]; simp
    · intro hrc
      rcases hout with ⟨_, h2⟩ | ⟨h1, _⟩ | ⟨h1, _⟩
      · rw [h2]; exact ⟨hgused, hgperm⟩
      · omega
      · omega

theorem insert_all_spec (hs : hashset_t) (X : List UInt8) (hinv : Inv hs) :
    ∃ hs1, hashset_insert Alloc.all hs X = .ok (0, hs1) ∧ Inv hs1 ∧ 0 < hs1.cap ∧
      (∀ Y, Y ∈ keys hs1.buckets ↔ Y = X ∨ Y ∈ keys hs.buckets) ∧
      hs1.used = (if X ∈ keys hs.buckets then hs.used else hs.used + 1) ∧
      hs1.cap = (if 3 * hs.cap ≤ 4 * hs.used
        then max HASHSET_INIT_CAP (hs.cap * HASHSET_GROW_RATE) else hs.cap) := by
  rcases insert_cases Alloc.all hs X hinv with ⟨_, hf, _⟩ | ⟨g, hginv, hgload, hgused, hgperm, hg, h⟩
  · simp [Alloc.all] at hf
  · have hgcap : g.cap = (if 3 * hs.cap ≤ 4 * hs.used
        then max HASHSET_INIT_CAP (hs.cap * HASHSET_GROW_RATE) else hs.cap) := by
      rcases hg with ⟨h1, h2⟩ | ⟨h1, _, h2⟩
      · simp [h1, h2]
      · simp [h1, h2]
    have hcap : 0 < g.cap := by omega
    by_cases hX : X ∈ keys g.buckets
    · have hb := insert_body_present Alloc.all g X hginv hcap hX
      refine ⟨g, h.trans hb, hginv, hcap, ?_, ?_, hgcap⟩
      · intro Y
        rw [hgperm.mem_iff]
        constructor
        · exact Or.inr
        · rintro (rfl | hY)
          · exact hgperm.mem_iff.mp hX
          · exact hY
      · simp [hgperm.mem_iff.mp hX, hgused]
    · obtain ⟨nb, hb, hinv1, hperm⟩ := insert_body_new Alloc.all g X hginv hgload hX rfl rfl
      refine ⟨_, h.trans hb, hinv1, hcap, ?_, ?_, hgcap⟩
      · intro Y
        simp only
        rw [hperm.mem_iff, List.mem_cons, hgperm.mem_iff]
      · have : X ∉ keys hs.buckets := fun hc => hX (hgperm.mem_iff.mpr hc)
        simp [this, hgused]

theorem remove_spec (hs : hashset_t) (X : List UInt8) (hinv : Inv hs) (hcap : 0 < hs.cap) :
    ∃ rc hs1, hashset_remove hs X = .ok (rc, hs1) ∧ Inv hs1 ∧ hs1.cap = hs.cap ∧
      (rc = 0 ∨ rc = -1) ∧ (rc = 0 ↔ X ∈ keys hs.buckets) ∧
      (∀ Y, Y ∈ keys hs1.buckets ↔ Y ≠ X ∧ Y ∈ keys hs.buckets) ∧
      hs1.used = (if X ∈ keys hs.buckets then hs.used - 1 else hs.used) := by
  by_cases hX : X ∈ keys hs.buckets
  · obtain ⟨nb, h1, h2, h3⟩ := remove_present hs X hinv hcap hX
    have hnd := List.nodup_cons.mp ((List.Perm.nodup_iff h3).mp hinv.nodup)
    refine ⟨0, _, h1, h2, rfl, Or.inl rfl, by simp [hX], ?_, by simp [hX]⟩
    intro Y
    simp only
    rw [h3.mem_iff, List.mem_cons]
    constructor
    · intro hY
      refine ⟨?_, Or.inr hY⟩
      rintro rfl
      exact hnd.1 hY
    · rintro ⟨hne, hY | hY⟩
      · exact absurd hY hne
      · exact hY
  · refine ⟨-1, hs, remove_absent hs X hinv hcap hX, hinv, rfl, Or.inr rfl, by simp [hX], ?_,
      by simp [hX]⟩
    intro Y
    constructor
    · intro hY
      refine ⟨?_, hY⟩
      rintro rfl
      exact hX hY
    · exact fun h => h.2

theorem reachable_inv (hs : hashset_t) (h : Reachable hs) : Inv hs := by
  induction h with
  | zero => exact inv_zero
  | insert al hs X rc hs1 _ hstep ih =>
    obtain ⟨rc1, hs2, h1, h2, _⟩ := insert_any_spec al hs X ih
    rw [h1] at hstep
    cases hstep
    exact h2
  | remove hs X rc hs1 _ hstep ih =>
    by_cases hcap : 0 < hs.cap
    · obtain ⟨rc1, hs2, h1, h2, _⟩ := remove_spec hs X ih hcap
      rw [h1] at hstep
      cases hstep
      exact h2
    · have : hs.cap = 0 := by omega
      simp [hashset_remove, this] at hstep

/-! ## Call sequences -/

theorem reachable_step (hs hs1 : hashset_t) (op : Op) (h : Reachable hs)
    (hstep : step hs op = .ok hs1) : Reachable hs1 := by
  cases op with
  | insert item =>
    cases hr : hashset_insert Alloc.all hs item with
    | error e => simp [step, hr] at hstep
    | ok p =>
      obtain ⟨rc, hs2⟩ := p
      simp only [step, hr, Except.ok.injEq] at hstep
      subst hstep
      exact Reachable.insert Alloc.all hs item rc hs2 h hr
  | remove item =>
    cases hr : hashset_remove hs item with
    | error e => simp [step, hr] at hstep
    | ok p =>
      obtain ⟨rc, hs2⟩ := p
      simp only [step, hr, Except.ok.injEq] at hstep
      subst hstep
      exact Reachable.remove hs item rc hs2 h hr

theorem reachable_run (ops : List Op) :
    ∀ (hs hs1 : hashset_t), Reachable hs → run hs ops = .ok hs1 → Reachable hs1 := by
  induction ops with
  | nil =>
    intro hs hs1 h hrun
    cases hrun
    exact h
  | cons op ops ih =>
    intro hs hs1 h hrun
    cases hr : step hs op with
    | error e => simp [run, hr] at hrun
    | ok hs2 =>
      simp only [run, hr] at hrun
      exact ih hs2 hs1 (reachable_step hs hs2 op h hr) hrun

theorem reachable_exec (ops : List Op) : Reachable (exec ops) := by
  cases hr : run hashset_zero ops with
  | error e => simpa [exec, hr] using Reachable.zero
  | ok hs => simpa [exec, hr] using reachable_run ops hashset_zero hs Reachable.zero hr

theorem run_spec (ops : List Op) :
    ∀ (hs : hashset_t), Inv hs → 0 < hs.cap →
      ∃ hs1, run hs ops = .ok hs1 ∧ Inv hs1 ∧ 0 < hs1.cap ∧
        (keys hs1.buckets).toFinset = replay ops (keys hs.buckets).toFinset := by
  induction ops with
  | nil =>
    intro hs hinv hcap
    exact ⟨hs, rfl, hinv, hcap, rfl⟩
  | cons op ops ih =>
    intro hs hinv hcap
    cases op with
    | insert X =>
      obtain ⟨hs1, h1, hinv1, hcap1, hkeys, _⟩ := insert_all_spec hs X hinv
      obtain ⟨hs2, h2, hinv2, hcap2, hk2⟩ := ih hs1 hinv1 hcap1
      refine ⟨hs2, by simp [run, step, h1, h2], hinv2, hcap2, ?_⟩
      rw [hk2]
      simp only [replay]
      congr 1
      ext Y
      simp [hkeys Y]
    | remove X =>
      obtain ⟨rc, hs1, h1, hinv1, hcap1, _, _, hkeys, _⟩ := remove_spec hs X hinv hcap
      obtain ⟨hs2, h2, hinv2, hcap2, hk2⟩ := ih hs1 hinv1 (by omega)
      refine ⟨hs2, by simp [run, step, h1, h2], hinv2, hcap2, ?_⟩
      rw [hk2]
      simp only [replay]
      congr 1
      ext Y
      simp [hkeys Y]

theorem size_spec (hs : hashset_t) (hinv : Inv hs) (hcap : 0 < hs.cap) :
    hashset_size hs = .ok (keys hs.buckets).toFinset.card := by
  have hc0 : hs.cap ≠ 0 := by omega
  rw [List.toFinset_card_of_nodup hinv.nodup]
  simp [hashset_size, hc0, hinv.count, keys]

/-! ## The storage contract -/

/-- Claim C1. Deletion preserves unrelated members: in every reachable state, for
byte sequences `Y ≠ X`, `hashset_contains Y` after `hashset_remove X` gives what
`hashset_contains Y` gave before; with a non-zero capacity both calls return, and the
removed `X` itself is no longer found. -/
theorem C1_remove_preserves_others (hs : hashset_t) (X Y : List UInt8)
    (hr : Reachable hs) (hne : Y ≠ X) :
    (match hashset_remove hs X with
      | .ok (_, hs1) => hashset_contains hs1 Y
      | .error e => .error e) = hashset_contains hs Y ∧
    (0 < hs.cap → ∃ rc hs1 v, hashset_remove hs X = .ok (rc, hs1) ∧
      hashset_contains hs Y = .ok v ∧ hashset_contains hs1 Y = .ok v ∧
      hashset_contains hs1 X = .ok false) := by
  have hinv := reachable_inv hs hr
  by_cases hcap : 0 < hs.cap
  · obtain ⟨rc, hs1, h1, hinv1, hcap1, _, _, hkeys, _⟩ := remove_spec hs X hinv hcap
    have hY : hashset_contains hs1 Y = hashset_contains hs Y := by
      rw [contains_spec hs1 Y hinv1 (by omega), contains_spec hs Y hinv hcap]
      simp [hkeys Y, hne]
    have hX : hashset_contains hs1 X = .ok false := by
      rw [contains_spec hs1 X hinv1 (by omega)]
      simp [hkeys X]
    refine ⟨by simp [h1, hY], fun _ => ⟨rc, hs1, _, h1, contains_spec hs Y hinv hcap, ?_, hX⟩⟩
    rw [hY, contains_spec hs Y hinv hcap]
  · have hc : hs.cap = 0 := by omega
    exact ⟨by simp [hashset_remove, hashset_contains, hc], fun h => absurd h hcap⟩

/-- Witness for C1: three byte sequences with home slot 768 are inserted, the
middle one is removed, and the other two are still found. -/
theorem C1_witness :
    (hashset__hash [37, 0] % 1024 = 768 ∧ hashset__hash [84, 3] % 1024 = 768 ∧
      hashset__hash [199, 6] % 1024 = 768) ∧
    (match hashset_remove (exec [.insert [37, 0], .insert [84, 3], .insert [199, 6]])
          [84, 3] with
      | .ok (_, hs1) =>
        (hashset_contains hs1 [37, 0], hashset_contains hs1 [199, 6],
          hashset_contains hs1 [84, 3])
      | .error e => (.error e, .error e, .error e)) = (.ok true, .ok true, .ok false) ∧
    ((match hashset_remove (exec [.insert [37, 0], .insert [84, 3], .insert [199, 6]])
          [84, 3] with
      | .ok (_, hs1) => hashset_contains hs1 [37, 0]
      | .error e => .error e) =
        hashset_contains (exec [.insert [37, 0], .insert [84, 3], .insert [199, 6]]) [37, 0] ∧
    (0 < (exec [.insert [37, 0], .insert [84, 3], .insert [199, 6]]).cap →
      ∃ rc hs1 v,
        hashset_remove (exec [.insert [37, 0], .insert [84, 3], .insert [199, 6]]) [84, 3] =
          .ok (rc, hs1) ∧
        hashset_contains (exec [.insert [37, 0], .insert [84, 3], .insert [199, 6]]) [37, 0] =
          .ok v ∧
        hashset_contains hs1 [37, 0] = .ok v ∧ hashset_contains hs1 [84, 3] = .ok false)) :=
  ⟨by decide, by decide,
   C1_remove_preserves_others (exec [.insert [37, 0], .insert [84, 3], .insert [199, 6]])
    [84, 3] [37, 0] (reachable_exec _) (by decide)⟩

/-- Claim C2. Round trip, first half: in every reachable state and for every byte
sequence `X`, `hashset_insert X` (allocation succeeding) returns 0 and
`hashset_contains X` on the resulting state returns true. -/
theorem C2_insert_then_contains (hs : hashset_t) (X : List UInt8) (hr : Reachable hs) :
    ∃ hs1, hashset_insert Alloc.all hs X = .ok (0, hs1) ∧
      hashset_contains hs1 X = .ok true := by
  obtain ⟨hs1, h1, hinv1, hcap1, hkeys, _⟩ := insert_all_spec hs X (reachable_inv hs hr)
  refine ⟨hs1, h1, ?_⟩
  rw [contains_spec hs1 X hinv1 hcap1]
  simp [hkeys X]

/-- Witness for C2 on the zero-initialised engine, where the insert grows the table. -/
theorem C2_witness :
    ∃ hs1, hashset_insert Alloc.all hashset_zero [0x61] = .ok (0, hs1) ∧
      hashset_contains hs1 [0x61] = .ok true :=
  C2_insert_then_contains hashset_zero [0x61] Reachable.zero

/-- Claim C3. Round trip, second half: in every reachable state with non-zero
capacity, `hashset_remove X` returns and `hashset_contains X` on the resulting state
returns false. -/
theorem C3_remove_then_contains (hs : hashset_t) (X : List UInt8) (hr : Reachable hs)
    (hcap : 0 < hs.cap) :
    ∃ rc hs1, hashset_remove hs X = .ok (rc, hs1) ∧ hashset_contains hs1 X = .ok false := by
  obtain ⟨rc, hs1, h1, hinv1, hcap1, _, _, hkeys, _⟩ :=
    remove_spec hs X (reachable_inv hs hr) hcap
  refine ⟨rc, hs1, h1, ?_⟩
  rw [contains_spec hs1 X hinv1 (by omega)]
  simp [hkeys X]

/-- Witness for C3: remove the one stored byte sequence. -/
theorem C3_witness :
    0 < (exec [.insert [0x61]]).cap ∧
    ∃ rc hs1, hashset_remove (exec [.insert [0x61]]) [0x61] = .ok (rc, hs1) ∧
      hashset_contains hs1 [0x61] = .ok false :=
  ⟨by decide, C3_remove_then_contains (exec [.insert [0x61]]) [0x61] (reachable_exec _)
    (by decide)⟩

/-- Claim C4. Growth preserves membership: in every reachable state with non-zero
capacity, for `Y ≠ X`, `hashset_insert X` returns 0 and `hashset_contains Y` gives
afterwards what it gave before, also when the insert grows and rehashes the table
(which it does exactly when `3 * cap ≤ 4 * used`). -/
theorem C4_insert_preserves_others (hs : hashset_t) (X Y : List UInt8) (hr : Reachable hs)
    (hcap : 0 < hs.cap) (hne : Y ≠ X) :
    ∃ hs1 v, hashset_insert Alloc.all hs X = .ok (0, hs1) ∧
      hashset_contains hs Y = .ok v ∧ hashset_contains hs1 Y = .ok v ∧
      hs1.cap = (if 3 * hs.cap ≤ 4 * hs.used
        then max HASHSET_INIT_CAP (hs.cap * HASHSET_GROW_RATE) else hs.cap) := by
  have hinv := reachable_inv hs hr
  obtain ⟨hs1, h1, hinv1, hcap1, hkeys, _, hc⟩ := insert_all_spec hs X hinv
  refine ⟨hs1, _, h1, contains_spec hs Y hinv hcap, ?_, hc⟩
  rw [contains_spec hs1 Y hinv1 hcap1]
  simp [hkeys Y, hne]

/-- Witness for C4: a stored byte sequence stays found when another one is inserted. -/
theorem C4_witness :
    0 < (exec [.insert [0x61]]).cap ∧ ([0x61] : List UInt8) ≠ [0x62] ∧
    ∃ hs1 v, hashset_insert Alloc.all (exec [.insert [0x61]]) [0x62] = .ok (0, hs1) ∧
      hashset_contains (exec [.insert [0x61]]) [0x61] = .ok v ∧
      hashset_contains hs1 [0x61] = .ok v ∧
      hs1.cap = (if 3 * (exec [.insert [0x61]]).cap ≤ 4 * (exec [.insert [0x61]]).used
        then max HASHSET_INIT_CAP ((exec [.insert [0x61]]).cap * HASHSET_GROW_RATE)
        else (exec [.insert [0x61]]).cap) :=
  ⟨by decide, by decide,
    C4_insert_preserves_others (exec [.insert [0x61]]) [0x62] [0x61] (reachable_exec _)
      (by decide) (by decide)⟩

/-- Counterexample for C5: the call sequence `remove [1], insert [2]` contains an
insert, its replay is a one-element set, and yet its first call exits the process, so
no final state exists on which `hashset_size` could report 1. -/
theorem C5_counterexample :
    Op.insert [2] ∈ [Op.remove [1], Op.insert [2]] ∧
    (replay [Op.remove [1], Op.insert [2]] ∅).card = 1 ∧
    run hashset_zero [Op.remove [1], Op.insert [2]] = .error .fatal ∧
    (match run hashset_zero [Op.remove [1], Op.insert [2]] with
      | .ok hs => hashset_size hs
      | .error e => .error e) ≠ .ok (replay [Op.remove [1], Op.insert [2]] ∅).card := by
  decide

/-- Claim C5, amended. Size accuracy: every finite sequence of insert/remove calls
whose first call is an insert runs to a final state on the zero-initialised engine,
and `hashset_size` on that state is the cardinality of the finite set obtained by
replaying the sequence on the empty set. -/
theorem C5_size_accuracy (item : List UInt8) (ops : List Op) :
    ∃ hs, run hashset_zero (Op.insert item :: ops) = .ok hs ∧
      hashset_size hs = .ok (replay (Op.insert item :: ops) ∅).card := by
  obtain ⟨hs1, h1, hinv1, hcap1, hkeys, _⟩ := insert_all_spec hashset_zero item inv_zero
  obtain ⟨hs2, h2, hinv2, hcap2, hk2⟩ := run_spec ops hs1 hinv1 hcap1
  refine ⟨hs2, by simp [run, step, h1, h2], ?_⟩
  rw [size_spec hs2 hinv2 hcap2, hk2]
  simp only [replay]
  have hz : keys hashset_zero.buckets = [] := rfl
  congr 3
  ext Y
  simp [hkeys Y, hz]

/-- Counterexample for C6: the first insert of `[1]` stores a new item (the count
goes from 0 to 1), the second finds it present (the state is unchanged), and both
calls return the same value 0. -/
theorem C6_counterexample :
    hashset_insert Alloc.all hashset_zero [1] = .ok (0, exec [.insert [1]]) ∧
    hashset_zero.used = 0 ∧ (exec [.insert [1]]).used = 1 ∧
    hashset_contains (exec [.insert [1]]) [1] = .ok true ∧
    hashset_insert Alloc.all (exec [.insert [1]]) [1] = .ok (0, exec [.insert [1]]) := by
  decide

/-- Claim C6, amended. With allocation succeeding `hashset_insert` returns 0 in
every reachable state, whether it stores a new item or finds `X` already present; the
two outcomes differ in the count, which goes up by one exactly when `X` was not
contained. -/
theorem C6_insert_result (hs : hashset_t) (X : List UInt8) (hr : Reachable hs) :
    ∃ hs1, hashset_insert Alloc.all hs X = .ok (0, hs1) ∧
      (hashset_contains hs X = .ok true → hs1.used = hs.used) ∧
      (hashset_contains hs X ≠ .ok true → hs1.used = hs.used + 1) := by
  have hinv := reachable_inv hs hr
  obtain ⟨hs1, h1, _, _, _, hused, _⟩ := insert_all_spec hs X hinv
  refine ⟨hs1, h1, ?_, ?_⟩
  · intro hc
    by_cases hcap : 0 < hs.cap
    · rw [contains_spec hs X hinv hcap] at hc
      have : X ∈ keys hs.buckets := by simpa using hc
      simp [hused, this]
    · have h0 : hs.cap = 0 := by omega
      simp [hashset_contains, h0] at hc
  · intro hc
    have hX : X ∉ keys hs.buckets := by
      intro hm
      have hcap : 0 < hs.cap := by
        obtain ⟨p, b, hp, _⟩ := (mem_keys_iff _ _).mp hm
        have := slotAt_lt _ p b hp
        rw [hinv.len] at this
        omega
      apply hc
      rw [contains_spec hs X hinv hcap]
      simp [hm]
    simp [hused, hX]

/-- Witness for C6 on the state holding `[1]`. -/
theorem C6_witness :
    ∃ hs1, hashset_insert Alloc.all (exec [.insert [1]]) [1] = .ok (0, hs1) ∧
      (hashset_contains (exec [.insert [1]]) [1] = .ok true →
        hs1.used = (exec [.insert [1]]).used) ∧
      (hashset_contains (exec [.insert [1]]) [1] ≠ .ok true →
        hs1.used = (exec [.insert [1]]).used + 1) :=
  C6_insert_result (exec [.insert [1]]) [1] (reachable_exec _)


theorem run_append (a b : List Op) :
    ∀ hs, run hs (a ++ b) =
      (match run hs a with
        | .ok hs1 => run hs1 b
        | .error e => .error e) := by
  induction a with
  | nil => intro hs; rfl
  | cons op a ih =>
    intro hs
    cases hr : step hs op with
    | error e => simp [run, hr]
    | ok hs1 => simp [run, hr, ih hs1]

theorem fillOps_succ (n : Nat) : fillOps (n + 1) = fillOps n ++ [Op.insert (item8 n)] := by
  simp [fillOps, List.range_succ]

theorem item8_inj (i j : Nat) (hi : i < 65536) (hj : j < 65536) (h : item8 i = item8 j) :
    i = j := by
  simp only [item8, List.cons.injEq, and_true] at h
  have h1 := congrArg UInt8.toNat h.1
  have h2 := congrArg UInt8.toNat h.2
  simp only [UInt8.ofNat, UInt8.toNat, BitVec.toNat_ofNat] at h1 h2
  omega

theorem fill_spec (n : Nat) (hn : n ≤ 768) :
    ∃ hs, run hashset_zero (fillOps n) = .ok hs ∧ Inv hs ∧ hs.used = n ∧
      hs.cap = (if n = 0 then 0 else 1024) ∧
      ∀ Y, Y ∈ keys hs.buckets ↔ ∃ i, i < n ∧ Y = item8 i := by
  induction n with
  | zero =>
    exact ⟨hashset_zero, rfl, inv_zero, rfl, rfl, fun Y => by simp [hashset_zero, keys, items]⟩
  | succ n ih =>
    obtain ⟨hs, hrun, hinv, hused, hcap, hkeys⟩ := ih (by omega)
    obtain ⟨hs1, h1, hinv1, _, hk1, hu1, hc1⟩ := insert_all_spec hs (item8 n) hinv
    have hnew : item8 n ∉ keys hs.buckets := by
      intro hm
      obtain ⟨i, hi, he⟩ := (hkeys _).mp hm
      have := item8_inj n i (by omega) (by omega) he
      omega
    refine ⟨hs1, ?_, hinv1, ?_, ?_, ?_⟩
    · rw [fillOps_succ, run_append, hrun]
      simp [run, step, h1]
    · simp [hu1, hnew, hused]
    · rw [hc1, hcap, hused]
      by_cases h0 : n = 0
      · simp [h0, HASHSET_INIT_CAP, HASHSET_GROW_RATE]
      · have h2 : ¬ 3 * 1024 ≤ 4 * n := by omega
        simp [h0, h2]
    · intro Y
      rw [hk1, hkeys]
      constructor
      · rintro (rfl | ⟨i, hi, rfl⟩)
        · exact ⟨n, by omega, rfl⟩
        · exact ⟨i, by omega, rfl⟩
      · rintro ⟨i, hi, rfl⟩
        by_cases hin : i = n
        · left; rw [hin]
        · right; exact ⟨i, by omega, rfl⟩

theorem exec_eq_of_run (ops : List Op) (hs : hashset_t)
    (h : run hashset_zero ops = .ok hs) : exec ops = hs := by
  unfold exec
  rw [h]

/-- Counterexample for C7: after 768 distinct inserts the table of 1024 slots is at
its load threshold; `item8 0` is contained, and inserting it again grows the table
to 2048 slots before the duplicate is noticed. -/
theorem C7_counterexample :
    Reachable (exec (fillOps 768)) ∧
    (exec (fillOps 768)).cap = 1024 ∧ (exec (fillOps 768)).used = 768 ∧
    hashset_contains (exec (fillOps 768)) (item8 0) = .ok true ∧
    ∃ hs1, hashset_insert Alloc.all (exec (fillOps 768)) (item8 0) = .ok (0, hs1) ∧
      hs1.cap = 2048 := by
  obtain ⟨hs, hrun, hinv, hused, hcap, hkeys⟩ := fill_spec 768 (by omega)
  have hex : exec (fillOps 768) = hs := exec_eq_of_run _ _ hrun
  have hcap1 : hs.cap = 1024 := by simpa using hcap
  obtain ⟨hs1, h1, _, _, _, _, hc1⟩ := insert_all_spec hs (item8 0) hinv
  have hmem : item8 0 ∈ keys hs.buckets := (hkeys _).mpr ⟨0, by omega, rfl⟩
  have hreach : Reachable hs := reachable_run _ _ _ Reachable.zero hrun
  rw [hex]
  refine ⟨hreach, hcap1, hused, ?_, hs1, h1, ?_⟩
  · rw [contains_spec hs _ hinv (by omega)]
    simp [hmem]
  · rw [hc1, hcap1, hused]
    simp [HASHSET_INIT_CAP, HASHSET_GROW_RATE]

/-- Claim C7, amended. A duplicate insert below the load threshold is a no-op: in
every reachable state that contains `X`, if `4 * used < 3 * cap` then
`hashset_insert X` returns 0 and leaves the engine exactly as it was, whatever the
allocator does.  At the threshold (`3 * cap ≤ 4 * used`) the growth step runs before
the duplicate is found: the capacity becomes `max 1024 (2 * cap)`, while the count
and the outcome of every `hashset_contains` stay as they were. -/
theorem C7_duplicate_insert (hs : hashset_t) (X : List UInt8) (hr : Reachable hs)
    (hc : hashset_contains hs X = .ok true) :
    (4 * hs.used < 3 * hs.cap → ∀ al, hashset_insert al hs X = .ok (0, hs)) ∧
    (3 * hs.cap ≤ 4 * hs.used →
      ∃ hs1, hashset_insert Alloc.all hs X = .ok (0, hs1) ∧
        hs1.cap = max HASHSET_INIT_CAP (hs.cap * HASHSET_GROW_RATE) ∧
        hs1.used = hs.used ∧ ∀ Y, hashset_contains hs1 Y = hashset_contains hs Y) := by
  have hinv := reachable_inv hs hr
  have hcap : 0 < hs.cap := by
    by_contra h0
    have : hs.cap = 0 := by omega
    simp [hashset_contains, this] at hc
  have hX : X ∈ keys hs.buckets := by
    rw [contains_spec hs X hinv hcap] at hc
    simpa using hc
  constructor
  · intro hload al
    have hg : ¬ 3 * hs.cap ≤ 4 * hs.used := by omega
    rw [← insert_body_present al hs X hinv hcap hX]
    simp [hashset_insert, HASHSET_LOAD_NUM, HASHSET_LOAD_DEN, hg]
  · intro hg
    obtain ⟨hs1, h1, hinv1, hcap1, hk1, hu1, hc1⟩ := insert_all_spec hs X hinv
    refine ⟨hs1, h1, by simp [hc1, hg], by simp [hu1, hX], ?_⟩
    intro Y
    rw [contains_spec hs1 Y hinv1 hcap1, contains_spec hs Y hinv hcap]
    have : Y ∈ keys hs1.buckets ↔ Y ∈ keys hs.buckets := by
      rw [hk1]
      constructor
      · rintro (rfl | h)
        · exact hX
        · exact h
      · exact Or.inr
    simp [this]

/-- Witness for C7 on the state holding `[1]`. -/
theorem C7_witness :
    hashset_contains (exec [.insert [1]]) [1] = .ok true ∧
    4 * (exec [.insert [1]]).used < 3 * (exec [.insert [1]]).cap ∧
    hashset_insert Alloc.all (exec [.insert [1]]) [1] = .ok (0, exec [.insert [1]]) :=
  ⟨by decide, by decide,
    (C7_duplicate_insert (exec [.insert [1]]) [1] (reachable_exec _) (by decide)).1
      (by decide) Alloc.all⟩

/-- Claim C8. The result of remove tells whether the item was present: in every
reachable state with non-zero capacity `hashset_remove X` returns 0 or -1, it returns
0 exactly when `hashset_contains X` was true before the call, and -1 exactly when it
was false. -/
theorem C8_remove_result (hs : hashset_t) (X : List UInt8) (hr : Reachable hs)
    (hcap : 0 < hs.cap) :
    ∃ rc hs1, hashset_remove hs X = .ok (rc, hs1) ∧ (rc = 0 ∨ rc = -1) ∧
      (rc = 0 ↔ hashset_contains hs X = .ok true) ∧
      (rc = -1 ↔ hashset_contains hs X = .ok false) := by
  have hinv := reachable_inv hs hr
  obtain ⟨rc, hs1, h1, _, _, hrc, hiff, _⟩ := remove_spec hs X hinv hcap
  refine ⟨rc, hs1, h1, hrc, ?_, ?_⟩
  · rw [contains_spec hs X hinv hcap, hiff]
    simp
  · rw [contains_spec hs X hinv hcap]
    have : rc = -1 ↔ ¬ rc = 0 := by omega
    rw [this, hiff]
    simp

/-- Witness for C8: removing an absent byte sequence from a one-item set. -/
theorem C8_witness :
    0 < (exec [.insert [1]]).cap ∧
    ∃ rc hs1, hashset_remove (exec [.insert [1]]) [2] = .ok (rc, hs1) ∧ (rc = 0 ∨ rc = -1) ∧
      (rc = 0 ↔ hashset_contains (exec [.insert [1]]) [2] = .ok true) ∧
      (rc = -1 ↔ hashset_contains (exec [.insert [1]]) [2] = .ok false) :=
  ⟨by decide, C8_remove_result (exec [.insert [1]]) [2] (reachable_exec _) (by decide)⟩

/-- Counterexample for C9: on the zero-initialised engine the slot array is allocated
and installed, then the allocation of the bucket fails; the call reports -1 although
the capacity went from 0 to 1024 and the slot array from absent to 1024 empty slots. -/
theorem C9_counterexample :
    hashset_insert ⟨true, false, true⟩ hashset_zero [1] =
      .ok (-1, ⟨List.replicate 1024 none, 1024, 0⟩) ∧
    hashset_zero.cap = 0 ∧ hashset_zero.buckets = [] ∧
    (⟨List.replicate 1024 none, 1024, 0⟩ : hashset_t) ≠ hashset_zero := by
  decide

/-- Claim C9, amended. What a failed insert leaves behind: whenever `hashset_insert X`
reports -1 in a reachable state, the count is as before and, for a non-zero capacity,
every `hashset_contains` answers as before.  If the slot-array allocation is the one
that failed, or no growth was due (`4 * used < 3 * cap`), the engine is exactly as it
was.  If growth was due and its allocation succeeded, the grown table stays in place:
the capacity is `max 1024 (2 * cap)`. -/
theorem C9_insert_failure (al : Alloc) (hs hs1 : hashset_t) (X : List UInt8)
    (hr : Reachable hs) (h : hashset_insert al hs X = .ok (-1, hs1)) :
    hs1.used = hs.used ∧
    (0 < hs.cap → ∀ Y, hashset_contains hs1 Y = hashset_contains hs Y) ∧
    (al.slots = false ∨ 4 * hs.used < 3 * hs.cap → hs1 = hs) ∧
    (al.slots = true → 3 * hs.cap ≤ 4 * hs.used →
      hs1.cap = max HASHSET_INIT_CAP (hs.cap * HASHSET_GROW_RATE)) := by
  have hinv := reachable_inv hs hr
  rcases insert_cases al hs X hinv with ⟨hg, hal, hres⟩ | ⟨g, hginv, hgload, hgused, hgperm, hg, hres⟩
  · rw [hres] at h
    simp only [Except.ok.injEq, Prod.mk.injEq, true_and] at h
    subst h
    exact ⟨rfl, fun _ _ => rfl, fun _ => rfl, fun h1 => by simp [hal] at h1⟩
  · obtain ⟨rc, hs2, hb, _, _, hout⟩ := insert_body_total al g X hginv hgload
    rw [hres, hb] at h
    simp only [Except.ok.injEq, Prod.mk.injEq] at h
    obtain ⟨hrc, hs2eq⟩ := h
    subst hs2eq
    have hs2g : hs2 = g := by
      rcases hout with ⟨_, h2⟩ | ⟨h1, _⟩ | ⟨h1, _⟩
      · exact h2
      · omega
      · omega
    subst hs2g
    refine ⟨hgused, ?_, ?_, ?_⟩
    · intro hcap Y
      rw [contains_spec hs2 Y hginv (by omega), contains_spec hs Y hinv hcap]
      simp [hgperm.mem_iff]
    · intro hpre
      rcases hg with ⟨_, h2⟩ | ⟨h1, h2, _⟩
      · exact h2
      · rcases hpre with h3 | h3
        · simp [h2] at h3
        · omega
    · intro _ hgrow
      rcases hg with ⟨h1, _⟩ | ⟨_, _, h2⟩
      · exact absurd hgrow h1
      · exact h2

/-- Witness for C9: the slot-array allocation fails on the zero-initialised engine. -/
theorem C9_witness :
    hashset_insert ⟨false, true, true⟩ hashset_zero [1] = .ok (-1, hashset_zero) ∧
    hashset_zero.used = hashset_zero.used ∧
    (0 < hashset_zero.cap →
      ∀ Y, hashset_contains hashset_zero Y = hashset_contains hashset_zero Y) ∧
    ((⟨false, true, true⟩ : Alloc).slots = false ∨
      4 * hashset_zero.used < 3 * hashset_zero.cap → hashset_zero = hashset_zero) ∧
    ((⟨false, true, true⟩ : Alloc).slots = true →
      3 * hashset_zero.cap ≤ 4 * hashset_zero.used →
      hashset_zero.cap = max HASHSET_INIT_CAP (hashset_zero.cap * HASHSET_GROW_RATE)) :=
  ⟨by decide,
    C9_insert_failure ⟨false, true, true⟩ hashset_zero hashset_zero [1] Reachable.zero
      (by decide)⟩

theorem insert_body_empty (N u : Nat) (X : List UInt8) (hN : 0 < N) :
    hashset_insert_body Alloc.all ⟨List.replicate N none, N, u⟩ X =
      .ok (0, ⟨(List.replicate N none).set (hashset__hash X % N)
        (some ⟨X, X.length, hashset__hash X⟩), N, u + 1⟩) := by
  obtain ⟨k, rfl⟩ : ∃ k, N = k + 1 := ⟨N - 1, by omega⟩
  simp only [hashset_insert_body, hashset_insert_loop, slotAt_replicate, hashset__bucket_new,
    Alloc.all, List.take_length]
  rfl

theorem insert_zero_cap (hs : hashset_t) (X : List UInt8) (hcap : hs.cap = 0) :
    hashset_insert Alloc.all hs X =
      .ok (0, ⟨(List.replicate HASHSET_INIT_CAP none).set (hashset__hash X % HASHSET_INIT_CAP)
        (some ⟨X, X.length, hashset__hash X⟩), HASHSET_INIT_CAP, hs.used + 1⟩) := by
  have hmax : max HASHSET_INIT_CAP (0 * HASHSET_GROW_RATE) = HASHSET_INIT_CAP := by
    rw [Nat.zero_mul]; exact Nat.max_eq_left (Nat.zero_le _)
  have hgrow : hashset__grow Alloc.all hs =
      .ok (0, ⟨List.replicate HASHSET_INIT_CAP none, HASHSET_INIT_CAP, hs.used⟩) := by
    simp only [hashset__grow, hashset__rehash, hcap, hmax, Alloc.all]
    rfl
  have hb := insert_body_empty HASHSET_INIT_CAP hs.used X (by decide)
  simp only [hashset_insert, hcap, HASHSET_LOAD_NUM, HASHSET_LOAD_DEN, Nat.mul_zero,
    Nat.zero_le, if_true, hgrow]
  exact hb

/-- Claim C10. Fatal on misuse: on every engine state with capacity 0 each of
`hashset_contains`, `hashset_size` and `hashset_remove` exits the process, while
`hashset_insert` (allocation succeeding) returns 0; and on every reachable state with
non-zero capacity each of the three returns a value. -/
theorem C10_fatal_on_misuse (hs : hashset_t) (X : List UInt8) :
    (hs.cap = 0 →
      hashset_contains hs X = .error .fatal ∧ hashset_size hs = .error .fatal ∧
      hashset_remove hs X = .error .fatal ∧
      ∃ hs1, hashset_insert Alloc.all hs X = .ok (0, hs1)) ∧
    (Reachable hs → 0 < hs.cap →
      (∃ v, hashset_contains hs X = .ok v) ∧ (∃ n, hashset_size hs = .ok n) ∧
      ∃ rc hs1, hashset_remove hs X = .ok (rc, hs1)) := by
  constructor
  · intro hcap
    exact ⟨by simp [hashset_contains, hcap], by simp [hashset_size, hcap],
      by simp [hashset_remove, hcap], _, insert_zero_cap hs X hcap⟩
  · intro hr hcap
    have hinv := reachable_inv hs hr
    obtain ⟨rc, hs1, h1, _⟩ := remove_spec hs X hinv hcap
    exact ⟨⟨_, contains_spec hs X hinv hcap⟩, ⟨_, size_spec hs hinv hcap⟩, rc, hs1, h1⟩

/-- Witness for C10: the zero-initialised engine, and the engine after one insert. -/
theorem C10_witness :
    (hashset_zero.cap = 0 ∧
      hashset_contains hashset_zero [1] = .error .fatal ∧
      hashset_size hashset_zero = .error .fatal ∧
      hashset_remove hashset_zero [1] = .error .fatal ∧
      ∃ hs1, hashset_insert Alloc.all hashset_zero [1] = .ok (0, hs1)) ∧
    (0 < (exec [.insert [1]]).cap ∧
      (∃ v, hashset_contains (exec [.insert [1]]) [1] = .ok v) ∧
      (∃ n, hashset_size (exec [.insert [1]]) = .ok n) ∧
      ∃ rc hs1, hashset_remove (exec [.insert [1]]) [1] = .ok (rc, hs1)) :=
  ⟨⟨rfl, (C10_fatal_on_misuse hashset_zero [1]).1 rfl⟩,
   ⟨by decide, (C10_fatal_on_misuse (exec [.insert [1]]) [1]).2 (reachable_exec _)
      (by decide)⟩⟩


/-! ## The hash function -/

theorem hash_loop_eq_foldl (bs : List UInt8) (h : Nat) :
    hashset__hash_loop bs h =
      bs.foldl (fun h b => ((h ^^^ b.toNat) * 0x00000100000001b3) % 2 ^ 64) h := by
  induction bs generalizing h with
  | nil => rfl
  | cons b bs ih =>
    simp only [hashset__hash_loop, List.foldl_cons, SIZE_MOD]
    exact ih _

/-- Claim C11. The default hash is 64-bit FNV-1a: `hashset__hash bs` is the left fold
over `bs` of `h ↦ ((h xor b) * 0x100000001b3) mod 2 ^ 64` started at
`0xcbf29ce484222325`, a function of the bytes alone; the empty sequence hashes to
`0xcbf29ce484222325` and the single byte `0x61` to `0xaf63dc4c8601ec8c`. -/
theorem C11_hash_is_fnv1a (bs : List UInt8) :
    hashset__hash bs = fnv1a64_spec bs ∧
    hashset__hash [] = 0xcbf29ce484222325 ∧
    hashset__hash [0x61] = 0xaf63dc4c8601ec8c :=
  ⟨hash_loop_eq_foldl bs _, by decide, by decide⟩

/-! ## The invariants, slot by slot -/

theorem add_mod_cases (n a k : Nat) (ha : a < n) (hk : k < n) :
    (a + k < n ∧ (a + k) % n = a + k) ∨ (n ≤ a + k ∧ (a + k) % n = a + k - n) := by
  by_cases h : a + k < n
  · exact Or.inl ⟨h, Nat.mod_eq_of_lt h⟩
  · right
    refine ⟨by omega, ?_⟩
    rw [Nat.mod_eq_sub_mod (by omega)]
    exact Nat.mod_eq_of_lt (by omega)

theorem reach_path (hs : hashset_t) (hinv : Inv hs) : PathOccupied hs := by
  intro p b hp
  obtain ⟨_, hocc⟩ := hinv.reach p b hp
  have hpn : p < hs.cap := hinv.len ▸ slotAt_lt _ p b hp
  have hm : b.hash % hs.cap < hs.cap := Nat.mod_lt _ (by omega)
  generalize b.hash % hs.cap = m at hm hocc
  have c1 := cdist_cases hs.cap m p
  refine ⟨cdist hs.cap m p, by omega, ?_, ?_⟩
  · have c2 := add_mod_cases hs.cap m (cdist hs.cap m p) hm (by omega)
    omega
  · intro k hk
    have c2 := add_mod_cases hs.cap m k hm (by omega)
    have hx : (m + k) % hs.cap < hs.cap := Nat.mod_lt _ (by omega)
    by_cases hkd : k = cdist hs.cap m p
    · have : (m + k) % hs.cap = p := by omega
      rw [this, hp]
      simp
    · apply hocc _ hx
      have c3 := cdist_cases hs.cap m ((m + k) % hs.cap)
      omega

/-- Claim C13. Reachability invariant: in every reachable state each occupied slot
`p` holding bucket `b` is reached from `b.hash mod cap` by stepping `+1 (mod cap)`
through occupied slots only, `p` included; the states left by `hashset_insert` (with
any allocator outcome, with or without growth) and by `hashset_remove` have the
property again. -/
theorem C13_reachability (hs : hashset_t) (hr : Reachable hs) :
    PathOccupied hs ∧
    (∀ al X rc hs1, hashset_insert al hs X = .ok (rc, hs1) → PathOccupied hs1) ∧
    (∀ X rc hs1, hashset_remove hs X = .ok (rc, hs1) → PathOccupied hs1) :=
  ⟨reach_path hs (reachable_inv hs hr),
   fun al X rc hs1 h => reach_path hs1 (reachable_inv hs1 (Reachable.insert al hs X rc hs1 hr h)),
   fun X rc hs1 h => reach_path hs1 (reachable_inv hs1 (Reachable.remove hs X rc hs1 hr h))⟩

/-- Witness for C13: three byte sequences with home slot 1023 fill the slots 1023, 0
and 1, a run that wraps around the end of the array. -/
theorem C13_witness :
    (hashset__hash [125, 13] % 1024 = 1023 ∧ hashset__hash [165, 5] % 1024 = 1023 ∧
      hashset__hash [212, 6] % 1024 = 1023) ∧
    ((slotAt (exec [.insert [125, 13], .insert [165, 5], .insert [212, 6]]).buckets 1023).map
        (fun b => b.item) = some [125, 13] ∧
     (slotAt (exec [.insert [125, 13], .insert [165, 5], .insert [212, 6]]).buckets 0).map
        (fun b => b.item) = some [165, 5] ∧
     (slotAt (exec [.insert [125, 13], .insert [165, 5], .insert [212, 6]]).buckets 1).map
        (fun b => b.item) = some [212, 6]) ∧
    PathOccupied (exec [.insert [125, 13], .insert [165, 5], .insert [212, 6]]) :=
  ⟨by decide, by decide,
   (C13_reachability (exec [.insert [125, 13], .insert [165, 5], .insert [212, 6]])
     (reachable_exec _)).1⟩

theorem keys_unique_pos (t : List (Option hashset_bucket_t)) (hn : (keys t).Nodup)
    (p q : Nat) (b c : hashset_bucket_t) (hp : slotAt t p = some b)
    (hq : slotAt t q = some c) (he : b.item = c.item) : p = q := by
  by_contra hpq
  have hperm := items_set_none t p b hp
  have hq1 : slotAt (t.set p none) q = some c := by
    rw [slotAt_set _ _ _ _ (slotAt_lt t p b hp)]
    simpa [hpq] using hq
  have hc : c ∈ items (t.set p none) := (mem_items_iff _ _).mpr ⟨q, hq1⟩
  have hk : (keys t).Perm (b.item :: keys (t.set p none)) := by
    simpa [keys] using List.Perm.map (fun x : hashset_bucket_t => x.item) hperm
  have hnd := (List.Perm.nodup_iff hk).mp hn
  apply (List.nodup_cons.mp hnd).1
  rw [he]
  exact List.mem_map.mpr ⟨c, hc, rfl⟩

theorem inv_unique (hs : hashset_t) (hinv : Inv hs) : UniquePayloads hs := by
  intro p q b c hp hq he
  have hb := (hinv.reach p b hp).1.1
  have hc := (hinv.reach q c hq).1.1
  rw [hc] at he
  exact keys_unique_pos hs.buckets hinv.nodup p q b c hp hq
    ((hashset__equal_iff b c.item hb).mp he)

/-- Claim C14. Uniqueness invariant: in every reachable state no two distinct
occupied slots hold buckets whose payloads `hashset__equal` accepts as byte-equal. -/
theorem C14_uniqueness (hs : hashset_t) (hr : Reachable hs) : UniquePayloads hs :=
  inv_unique hs (reachable_inv hs hr)

/-- Witness for C14 on a table holding three colliding byte sequences. -/
theorem C14_witness :
    UniquePayloads (exec [.insert [37, 0], .insert [84, 3], .insert [199, 6]]) :=
  C14_uniqueness (exec [.insert [37, 0], .insert [84, 3], .insert [199, 6]])
    (reachable_exec _)

theorem length_eq_items_add_empty (t : List (Option hashset_bucket_t)) :
    t.length = (items t).length + t.count none := by
  induction t with
  | nil => rfl
  | cons a t ih =>
    cases a with
    | none =>
      simp only [items, List.reduceOption_cons_of_none, List.length_cons,
        List.count_cons_self] at ih ⊢
      omega
    | some c =>
      have : List.count none (some c :: t) = List.count none t := by
        rw [List.count_cons_of_ne]
        simp
      simp only [items, List.reduceOption_cons_of_some, List.length_cons, this] at ih ⊢
      omega

theorem items_length_eq_countP (t : List (Option hashset_bucket_t)) :
    (items t).length = t.countP Option.isSome := by
  induction t with
  | nil => rfl
  | cons a t ih =>
    cases a with
    | none => simpa [items, List.reduceOption_cons_of_none] using ih
    | some c => simpa [items, List.reduceOption_cons_of_some] using ih

/-- Claim C15. Load bound: in every reachable state `4 * used ≤ 3 * cap`, that is
`used ≤ cap * 0.75`; hence at least a quarter of the `cap` slots are empty. -/
theorem C15_load_bound (hs : hashset_t) (hr : Reachable hs) :
    4 * hs.used ≤ 3 * hs.cap ∧ hs.cap ≤ 4 * hs.buckets.count none := by
  have hinv := reachable_inv hs hr
  have h1 := length_eq_items_add_empty hs.buckets
  rw [hinv.len, ← hinv.count] at h1
  have h2 := hinv.load
  exact ⟨h2, by omega⟩

/-- Witness for C15 on the state holding one byte sequence. -/
theorem C15_witness :
    (exec [.insert [1]]).used = 1 ∧ (exec [.insert [1]]).cap = 1024 ∧
    4 * (exec [.insert [1]]).used ≤ 3 * (exec [.insert [1]]).cap ∧
    (exec [.insert [1]]).cap ≤ 4 * (exec [.insert [1]]).buckets.count none :=
  ⟨by decide, by decide, C15_load_bound (exec [.insert [1]]) (reachable_exec _)⟩

/-- Claim C16. Count invariant: in every reachable state the slot array has `cap`
slots, `used ≤ cap`, and `used` is the number of non-empty slots. -/
theorem C16_count (hs : hashset_t) (hr : Reachable hs) :
    hs.buckets.length = hs.cap ∧ hs.used ≤ hs.cap ∧
    hs.used = hs.buckets.countP Option.isSome := by
  have hinv := reachable_inv hs hr
  have h2 := hinv.load
  exact ⟨hinv.len, by omega, by rw [hinv.count, items_length_eq_countP]⟩

/-- Witness for C16 after two inserts and the removal of the first item. -/
theorem C16_witness :
    (exec [.insert [1], .insert [2], .remove [1]]).used = 1 ∧
    (exec [.insert [1], .insert [2], .remove [1]]).buckets.length =
      (exec [.insert [1], .insert [2], .remove [1]]).cap ∧
    (exec [.insert [1], .insert [2], .remove [1]]).used ≤
      (exec [.insert [1], .insert [2], .remove [1]]).cap ∧
    (exec [.insert [1], .insert [2], .remove [1]]).used =
      (exec [.insert [1], .insert [2], .remove [1]]).buckets.countP Option.isSome :=
  ⟨by decide, C16_count (exec [.insert [1], .insert [2], .remove [1]]) (reachable_exec _)⟩


/-! ## Termination -/

/-- Claim C12. Operations terminate within capacity probes: in every reachable state
`hashset_insert` returns whatever the allocator does, and neither `hashset_remove` nor
`hashset_contains` runs out of the `cap` iterations that each of their loops (search,
relocation walk, re-placement, lookup) is given; with a non-zero capacity both
return, and the lookup loop and the search loop leave within `cap` slot tests. -/
theorem C12_terminates (al : Alloc) (hs : hashset_t) (X : List UInt8) (hr : Reachable hs) :
    (∃ rc hs1, hashset_insert al hs X = .ok (rc, hs1)) ∧
    hashset_remove hs X ≠ .error .hang ∧ hashset_contains hs X ≠ .error .hang ∧
    (0 < hs.cap →
      (∃ v, hashset_contains_loop hs.cap hs.buckets hs.cap X (hashset__hash X % hs.cap) =
        some v) ∧
      (∃ p, hashset_remove_search hs.cap hs.buckets hs.cap X (hashset__hash X % hs.cap)
        (hashset__hash X % hs.cap) = some (RemoveSearch.stop p)) ∧
      (∃ v, hashset_contains hs X = .ok v) ∧
      (∃ rc hs1, hashset_remove hs X = .ok (rc, hs1))) := by
  have hinv := reachable_inv hs hr
  obtain ⟨rc, hs1, h1, _⟩ := insert_any_spec al hs X hinv
  have key : 0 < hs.cap →
      (∃ v, hashset_contains_loop hs.cap hs.buckets hs.cap X (hashset__hash X % hs.cap) =
        some v) ∧
      (∃ p, hashset_remove_search hs.cap hs.buckets hs.cap X (hashset__hash X % hs.cap)
        (hashset__hash X % hs.cap) = some (RemoveSearch.stop p)) ∧
      (∃ v, hashset_contains hs X = .ok v) ∧
      (∃ rc hs1, hashset_remove hs X = .ok (rc, hs1)) := by
    intro hcap
    obtain ⟨e, he, hse⟩ := inv_exists_empty hs hinv hcap
    have hh : hashset__hash X % hs.cap < hs.cap := Nat.mod_lt _ hcap
    have c := cdist_cases hs.cap (hashset__hash X % hs.cap) e
    obtain ⟨p, _, hl⟩ := contains_loop_spec hs.buckets hs.cap X (inv_size_ok hs hinv)
      hs.cap (hashset__hash X % hs.cap) e hh he hse (by omega)
    obtain ⟨q, hq, _⟩ := remove_search_top hs X hinv hcap
    obtain ⟨rc2, hs2, h2, _⟩ := remove_spec hs X hinv hcap
    exact ⟨⟨_, hl⟩, ⟨q, hq⟩, ⟨_, contains_spec hs X hinv hcap⟩, rc2, hs2, h2⟩
  refine ⟨⟨rc, hs1, h1⟩, ?_, ?_, key⟩
  · by_cases hcap : 0 < hs.cap
    · obtain ⟨_, _, _, rc2, hs2, h2⟩ := key hcap
      rw [h2]
      simp
    · have : hs.cap = 0 := by omega
      simp [hashset_remove, this]
  · by_cases hcap : 0 < hs.cap
    · rw [contains_spec hs X hinv hcap]
      simp
    · have : hs.cap = 0 := by omega
      simp [hashset_contains, this]

/-- Witness for C12 on a table holding three colliding byte sequences. -/
theorem C12_witness :
    (∃ rc hs1, hashset_insert Alloc.all
        (exec [.insert [37, 0], .insert [84, 3], .insert [199, 6]]) [84, 3] = .ok (rc, hs1)) ∧
    hashset_remove (exec [.insert [37, 0], .insert [84, 3], .insert [199, 6]]) [84, 3] ≠
      .error .hang ∧
    hashset_contains (exec [.insert [37, 0], .insert [84, 3], .insert [199, 6]]) [84, 3] ≠
      .error .hang :=
  ⟨(C12_terminates Alloc.all (exec [.insert [37, 0], .insert [84, 3], .insert [199, 6]])
      [84, 3] (reachable_exec _)).1,
   (C12_terminates Alloc.all (exec [.insert [37, 0], .insert [84, 3], .insert [199, 6]])
      [84, 3] (reachable_exec _)).2.1,
   (C12_terminates Alloc.all (exec [.insert [37, 0], .insert [84, 3], .insert [199, 6]])
      [84, 3] (reachable_exec _)).2.2.1⟩

/-! ## Growth policy on arbitrary engine states -/

theorem insert_loop_total (t : List (Option hashset_bucket_t)) (n : Nat) (X : List UInt8)
    (start : Nat) (hstart : start < n) :
    ∀ (fuel h : Nat), h < n → n ≤ fuel + cdist n start h →
      ∃ r, hashset_insert_loop fuel t n X start h = some r := by
  intro fuel
  induction fuel with
  | zero =>
    intro h hh hf
    have c := cdist_cases n start h
    omega
  | succ fuel ih =>
    intro h hh hf
    cases hs : slotAt t h with
    | none => exact ⟨.free h, by simp [hashset_insert_loop, hs]⟩
    | some b =>
      by_cases heq : hashset__equal b.item b.item_size X X.length = true
      · exact ⟨.present, by simp [hashset_insert_loop, hs, heq]⟩
      · by_cases hw : (h + 1) % n = start
        · exact ⟨.full, by simp [hashset_insert_loop, hs, heq, hw]⟩
        · have hh1 := succ_mod_lt n h hh
          have hsm := succ_mod_cases n h hh
          have c1 := cdist_cases n start h
          have c2 := cdist_cases n start ((h + 1) % n)
          obtain ⟨r, hr⟩ := ih ((h + 1) % n) hh1 (by omega)
          exact ⟨r, by simp [hashset_insert_loop, hs, heq, hw, hr]⟩

theorem insert_body_returns (al : Alloc) (hs : hashset_t) (X : List UInt8)
    (hcap : 0 < hs.cap) :
    ∃ rc hs1, hashset_insert_body al hs X = .ok (rc, hs1) ∧ hs1.cap = hs.cap := by
  have hh : hashset__hash X % hs.cap < hs.cap := Nat.mod_lt _ hcap
  have c := cdist_cases hs.cap (hashset__hash X % hs.cap) (hashset__hash X % hs.cap)
  obtain ⟨r, hr⟩ := insert_loop_total hs.buckets hs.cap X _ hh hs.cap _ hh (by omega)
  cases r with
  | present => exact ⟨0, hs, by simp [hashset_insert_body, hr], rfl⟩
  | full => exact ⟨-1, hs, by simp [hashset_insert_body, hr], rfl⟩
  | free p =>
    cases hb : hashset__bucket_new al X X.length (hashset__hash X) with
    | none => exact ⟨-1, hs, by simp [hashset_insert_body, hr, hb], rfl⟩
    | some bucket =>
      exact ⟨0, ⟨hs.buckets.set p (some bucket), hs.cap, hs.used + 1⟩,
        by simp [hashset_insert_body, hr, hb], rfl⟩

theorem rehash_loop_returns (N : Nat) (hN : 0 < N) :
    ∀ (L nb : List (Option hashset_bucket_t)), nb.length = N →
      (items nb).length + (items L).length < N →
      ∃ nb1, hashset__rehash_loop N L nb = .ok nb1 := by
  intro L
  induction L with
  | nil => intro nb _ _; exact ⟨nb, rfl⟩
  | cons a L ih =>
    intro nb hlen hcount
    cases a with
    | none =>
      have hi : items (none :: L) = items L := by
        simp [items, List.reduceOption_cons_of_none]
      rw [hi] at hcount
      obtain ⟨nb1, h1⟩ := ih nb hlen hcount
      exact ⟨nb1, by simpa [hashset__rehash_loop] using h1⟩
    | some c =>
      have hi : items (some c :: L) = c :: items L := by
        simp [items, List.reduceOption_cons_of_some]
      rw [hi] at hcount
      simp only [List.length_cons] at hcount
      obtain ⟨e, he, hse⟩ := exists_empty nb (by omega)
      rw [hlen] at he
      obtain ⟨p, hfind, hp, hsp, _⟩ :=
        find_free_spec nb N (c.hash % N) e (Nat.mod_lt _ hN) he hse
      have hperm := items_set_some nb p c (hlen ▸ hp) hsp
      obtain ⟨nb1, h1⟩ := ih (nb.set p (some c)) (by simpa using hlen)
        (by rw [hperm.length_eq]; simp only [List.length_cons]; omega)
      exact ⟨nb1, by simp [hashset__rehash_loop, hfind, h1]⟩

theorem grow_returns (al : Alloc) (hs : hashset_t) (hal : al.slots = true) :
    ∃ nb, hashset__grow al hs =
      .ok (0, ⟨nb, max HASHSET_INIT_CAP (hs.cap * HASHSET_GROW_RATE), hs.used⟩) := by
  have hN : 0 < max HASHSET_INIT_CAP (hs.cap * HASHSET_GROW_RATE) := by
    simp [HASHSET_INIT_CAP]
  by_cases hc : hs.cap = 0
  · exact ⟨List.replicate (max HASHSET_INIT_CAP (hs.cap * HASHSET_GROW_RATE)) none,
      by simp [hashset__grow, hashset__rehash, hal, hc]⟩
  · have h1 : (items (hs.buckets.take hs.cap)).length ≤ hs.cap := by
      have := List.reduceOption_length_le (hs.buckets.take hs.cap)
      have h2 : (hs.buckets.take hs.cap).length ≤ hs.cap := by
        rw [List.length_take]; omega
      unfold items
      omega
    obtain ⟨nb, hnb⟩ := rehash_loop_returns _ hN (hs.buckets.take hs.cap)
      (List.replicate (max HASHSET_INIT_CAP (hs.cap * HASHSET_GROW_RATE)) none)
      (by simp)
      (by
        rw [items_replicate]
        simp only [List.length_nil, HASHSET_INIT_CAP, HASHSET_GROW_RATE]
        omega)
    exact ⟨nb, by simp [hashset__grow, hashset__rehash, hal, hc, hnb]⟩

/-- Claim C17. Growth policy: on every engine state `hashset_insert` (allocation
succeeding) returns, and the capacity afterwards is `max 1024 (2 * cap)` when
`used ≥ cap * 0.75` held at the start of the call and the old capacity otherwise; so
the capacity changes exactly when `used ≥ cap * 0.75`, capacity 0 becomes 1024 and a
table of 1024 slots at its threshold gets 2048. -/
theorem C17_growth_policy (hs : hashset_t) (X : List UInt8) :
    ∃ rc hs1, hashset_insert Alloc.all hs X = .ok (rc, hs1) ∧
      hs1.cap = (if 3 * hs.cap ≤ 4 * hs.used then max 1024 (2 * hs.cap) else hs.cap) ∧
      (hs1.cap ≠ hs.cap ↔ 3 * hs.cap ≤ 4 * hs.used) ∧
      (hs.cap = 0 → hs1.cap = 1024) ∧
      (hs.cap = 1024 → 768 ≤ hs.used → hs1.cap = 2048) := by
  have key : ∃ rc hs1, hashset_insert Alloc.all hs X = .ok (rc, hs1) ∧
      hs1.cap = (if 3 * hs.cap ≤ 4 * hs.used then max 1024 (2 * hs.cap) else hs.cap) := by
    by_cases hg : 3 * hs.cap ≤ 4 * hs.used
    · obtain ⟨nb, hgrow⟩ := grow_returns Alloc.all hs rfl
      obtain ⟨rc, hs1, hb, hc⟩ := insert_body_returns Alloc.all
        ⟨nb, max HASHSET_INIT_CAP (hs.cap * HASHSET_GROW_RATE), hs.used⟩ X
        (by simp [HASHSET_INIT_CAP])
      refine ⟨rc, hs1, ?_, ?_⟩
      · simp [hashset_insert, HASHSET_LOAD_NUM, HASHSET_LOAD_DEN, hg, hgrow, hb]
      · rw [hc, if_pos hg]
        show max 1024 (hs.cap * 2) = max 1024 (2 * hs.cap)
        rw [Nat.mul_comm]
    · obtain ⟨rc, hs1, hb, hc⟩ := insert_body_returns Alloc.all hs X (by omega)
      refine ⟨rc, hs1, ?_, ?_⟩
      · simp [hashset_insert, HASHSET_LOAD_NUM, HASHSET_LOAD_DEN, hg, hb]
      · simp [hc, hg]
  obtain ⟨rc, hs1, h1, h2⟩ := key
  refine ⟨rc, hs1, h1, h2, ?_, ?_, ?_⟩
  · rw [h2]
    by_cases hg : 3 * hs.cap ≤ 4 * hs.used
    · simp only [hg, if_true, iff_true]
      omega
    · simp [hg]
  · intro h0
    rw [h2, h0]
    simp
  · intro h0 hu
    rw [h2, h0]
    have : 3 * 1024 ≤ 4 * hs.used := by omega
    simp [this]

/-- Witness for C17 on the zero-initialised engine. -/
theorem C17_witness :
    ∃ rc hs1, hashset_insert Alloc.all hashset_zero [1] = .ok (rc, hs1) ∧
      hs1.cap = (if 3 * hashset_zero.cap ≤ 4 * hashset_zero.used
        then max 1024 (2 * hashset_zero.cap) else hashset_zero.cap) ∧
      (hs1.cap ≠ hashset_zero.cap ↔ 3 * hashset_zero.cap ≤ 4 * hashset_zero.used) ∧
      (hashset_zero.cap = 0 → hs1.cap = 1024) ∧
      (hashset_zero.cap = 1024 → 768 ≤ hashset_zero.used → hs1.cap = 2048) :=
  C17_growth_policy hashset_zero [1]


/-! ## Filling a fresh table up to its load threshold -/

theorem insert_list_spec :
    ∀ (l : List (List UInt8)) (hs : hashset_t), Inv hs → l.Nodup →
      (∀ x, x ∈ l → x ∉ keys hs.buckets) → hs.used + l.length ≤ 768 →
      (hs.cap = 1024 ∨ (hs.cap = 0 ∧ hs.used = 0)) →
      ∃ hs1, run hs (l.map Op.insert) = .ok hs1 ∧ Inv hs1 ∧
        hs1.used = hs.used + l.length ∧
        hs1.cap = (if l = [] then hs.cap else 1024) ∧
        ∀ Y, Y ∈ keys hs1.buckets ↔ Y ∈ l ∨ Y ∈ keys hs.buckets := by
  intro l
  induction l with
  | nil =>
    intro hs hinv _ _ _ _
    exact ⟨hs, rfl, hinv, rfl, rfl, fun Y => by simp⟩
  | cons x l ih =>
    intro hs hinv hnd hnew hlen hcap
    simp only [List.length_cons] at hlen
    obtain ⟨hs1, h1, hinv1, _, hk1, hu1, hc1⟩ := insert_all_spec hs x hinv
    have hx : x ∉ keys hs.buckets := hnew x (List.mem_cons_self _ _)
    have hused1 : hs1.used = hs.used + 1 := by simp [hu1, hx]
    have hcap1 : hs1.cap = 1024 := by
      rw [hc1]
      rcases hcap with h | ⟨h, hu⟩
      · have : ¬ 3 * 1024 ≤ 4 * hs.used := by omega
        simp [h, this]
      · simp [h, hu, HASHSET_INIT_CAP, HASHSET_GROW_RATE]
    obtain ⟨hs2, h2, hinv2, hu2, hc2, hk2⟩ := ih hs1 hinv1 (List.nodup_cons.mp hnd).2
      (fun y hy hmem => by
        rcases (hk1 y).mp hmem with rfl | hm
        · exact (List.nodup_cons.mp hnd).1 hy
        · exact hnew y (List.mem_cons_of_mem _ hy) hm)
      (by omega) (Or.inl hcap1)
    refine ⟨hs2, by simp [run, step, h1, h2], hinv2,
      by simp only [List.length_cons]; omega, ?_, ?_⟩
    · rw [hc2, hcap1]
      simp
    · intro Y
      rw [hk2, hk1, List.mem_cons]
      tauto

/-- Counterexample for C18: the 768 byte sequences `item8 0, ..., item8 767` are
pairwise distinct and 8 bytes long; after the 768th insert the count is 768 and the
capacity is still 1024, not 2048. -/
theorem C18_counterexample :
    (fillOps 768).length = 768 ∧
    (∀ i, (item8 i).length = 8) ∧
    (∀ i j, i < 768 → j < 768 → item8 i = item8 j → i = j) ∧
    ∃ hs, run hashset_zero (fillOps 768) = .ok hs ∧ hs.used = 768 ∧ hs.cap = 1024 ∧
      hs.cap ≠ 2048 := by
  obtain ⟨hs, hrun, _, hused, hcap, _⟩ := fill_spec 768 (by omega)
  have hcap1 : hs.cap = 1024 := by simpa using hcap
  refine ⟨by simp [fillOps], fun i => rfl,
    fun i j hi hj h => item8_inj i j (by omega) (by omega) h, hs, hrun, hused, hcap1, ?_⟩
  omega

/-- Claim C18, amended. With default parameters, inserting 768 pairwise distinct byte
sequences (8-byte items in particular) into the zero-initialised engine leaves the
capacity at 1024 with count 768, exactly at the load threshold; the growth from 1024
to 2048 is triggered by the next `hashset_insert` call, the 769th, whatever it
inserts. -/
theorem C18_growth_at_769 (l : List (List UInt8)) (hnd : l.Nodup) (hlen : l.length = 768) :
    ∃ hs, run hashset_zero (l.map Op.insert) = .ok hs ∧ hs.cap = 1024 ∧ hs.used = 768 ∧
      ∀ X, ∃ hs1, hashset_insert Alloc.all hs X = .ok (0, hs1) ∧ hs1.cap = 2048 := by
  obtain ⟨hs, hrun, hinv, hused, hcap, _⟩ := insert_list_spec l hashset_zero inv_zero hnd
    (fun x _ hm => by simp [hashset_zero, keys, items] at hm)
    (by simp [hashset_zero, hlen]) (Or.inr ⟨rfl, rfl⟩)
  have hne : l ≠ [] := by
    intro h
    rw [h] at hlen
    simp at hlen
  have hcap1 : hs.cap = 1024 := by simpa [hne] using hcap
  have hused1 : hs.used = 768 := by
    rw [hused, hlen]
    rfl
  refine ⟨hs, hrun, hcap1, hused1, ?_⟩
  intro X
  obtain ⟨hs1, h1, _, _, _, _, hc1⟩ := insert_all_spec hs X hinv
  refine ⟨hs1, h1, ?_⟩
  rw [hc1, hcap1, hused1]
  simp [HASHSET_INIT_CAP, HASHSET_GROW_RATE]

theorem item8_nodup (n : Nat) (hn : n ≤ 65536) : ((List.range n).map item8).Nodup := by
  refine List.Nodup.map_on ?_ (List.nodup_range n)
  intro i hi j hj h
  rw [List.mem_range] at hi hj
  exact item8_inj i j (by omega) (by omega) h

/-- Witness for C18: the 768 byte sequences `item8 0, ..., item8 767`. -/
theorem C18_witness :
    ∃ hs, run hashset_zero (((List.range 768).map item8).map Op.insert) = .ok hs ∧
      hs.cap = 1024 ∧ hs.used = 768 ∧
      ∀ X, ∃ hs1, hashset_insert Alloc.all hs X = .ok (0, hs1) ∧ hs1.cap = 2048 :=
  C18_growth_at_769 ((List.range 768).map item8) (item8_nodup 768 (by omega))
    (by rw [List.length_map, List.length_range])

/-! ## The table-full branch -/

/-- Claim C19. The table-full failure of insert does not occur: in every reachable
state, with allocation succeeding, the probe loop of `hashset_insert` (run on the
table `g` that the growth check leaves) ends at a bucket equal to `X` or at an empty
slot, never through `if(hash == start) return -1`, and `hashset_insert` returns 0. -/
theorem C19_never_full (hs : hashset_t) (X : List UInt8) (hr : Reachable hs) :
    ∃ g, (g = hs ∨ hashset__grow Alloc.all hs = .ok (0, g)) ∧
      hashset_insert Alloc.all hs X = hashset_insert_body Alloc.all g X ∧
      (hashset_insert_loop g.cap g.buckets g.cap X (hashset__hash X % g.cap)
          (hashset__hash X % g.cap) = some InsertProbe.present ∨
       ∃ p, slotAt g.buckets p = none ∧
        hashset_insert_loop g.cap g.buckets g.cap X (hashset__hash X % g.cap)
          (hashset__hash X % g.cap) = some (InsertProbe.free p)) ∧
      ∃ hs1, hashset_insert Alloc.all hs X = .ok (0, hs1) := by
  have hinv := reachable_inv hs hr
  obtain ⟨hs1, h1, _⟩ := insert_all_spec hs X hinv
  have key : ∃ g, (g = hs ∨ hashset__grow Alloc.all hs = .ok (0, g)) ∧ Inv g ∧ 0 < g.cap ∧
      hashset_insert Alloc.all hs X = hashset_insert_body Alloc.all g X := by
    by_cases hg : 3 * hs.cap ≤ 4 * hs.used
    · obtain ⟨nb, hgrow, hginv, _⟩ := grow_spec Alloc.all hs hinv rfl
      refine ⟨_, Or.inr hgrow, hginv, by simp [HASHSET_INIT_CAP], ?_⟩
      simp [hashset_insert, HASHSET_LOAD_NUM, HASHSET_LOAD_DEN, hg, hgrow]
    · refine ⟨hs, Or.inl rfl, hinv, by omega, ?_⟩
      simp [hashset_insert, HASHSET_LOAD_NUM, HASHSET_LOAD_DEN, hg]
  obtain ⟨g, hg, hginv, hgcap, hbody⟩ := key
  refine ⟨g, hg, hbody, ?_, hs1, h1⟩
  rcases insert_loop_top g X hginv hgcap with ⟨_, h⟩ | ⟨_, p, _, hp, _, h⟩
  · exact Or.inl h
  · exact Or.inr ⟨p, hp, h⟩

/-- Witness for C19 on a table holding three colliding byte sequences. -/
theorem C19_witness :
    ∃ g, (g = exec [.insert [37, 0], .insert [84, 3], .insert [199, 6]] ∨
        hashset__grow Alloc.all (exec [.insert [37, 0], .insert [84, 3], .insert [199, 6]]) =
          .ok (0, g)) ∧
      hashset_insert Alloc.all (exec [.insert [37, 0], .insert [84, 3], .insert [199, 6]])
          [1] = hashset_insert_body Alloc.all g [1] ∧
      (hashset_insert_loop g.cap g.buckets g.cap [1] (hashset__hash [1] % g.cap)
          (hashset__hash [1] % g.cap) = some InsertProbe.present ∨
       ∃ p, slotAt g.buckets p = none ∧
        hashset_insert_loop g.cap g.buckets g.cap [1] (hashset__hash [1] % g.cap)
          (hashset__hash [1] % g.cap) = some (InsertProbe.free p)) ∧
      ∃ hs1, hashset_insert Alloc.all
        (exec [.insert [37, 0], .insert [84, 3], .insert [199, 6]]) [1] = .ok (0, hs1) :=
  C19_never_full (exec [.insert [37, 0], .insert [84, 3], .insert [199, 6]]) [1]
    (reachable_exec _)

/-! ## Insert followed by remove -/

theorem set_slot_self (t : List (Option hashset_bucket_t)) (p : Nat)
    (v : Option hashset_bucket_t) (hp : p < t.length) (h : slotAt t p = v) :
    t.set p v = t := by
  induction t generalizing p with
  | nil => simp at hp
  | cons a t ih =>
    cases p with
    | zero =>
      have : a = v := by simpa [slotAt] using h
      simp [this]
    | succ p =>
      have h1 : slotAt t p = v := by simpa [slotAt] using h
      simp [ih p (by simpa using hp) h1]

theorem shift_id (t : List (Option hashset_bucket_t)) (n e : Nat) (hlen : t.length = n)
    (hr : Reach t n) (he : e < n) (hse : slotAt t e = none) :
    ∀ (fuel x : Nat), x < n → cdist n x e < fuel →
      hashset_remove_shift fuel t n x = .ok t := by
  intro fuel
  induction fuel with
  | zero => intro x _ hd; omega
  | succ fuel ih =>
    intro x hx hd
    cases hsx : slotAt t x with
    | none => simp [hashset_remove_shift, hsx]
    | some b =>
      have hxl : x < t.length := hlen ▸ hx
      have hm : b.hash % n < n := Nat.mod_lt _ (by omega)
      have hxe : x ≠ e := by
        rintro rfl
        rw [hse] at hsx; cases hsx
      obtain ⟨p, hfind, hp, hsp, hocc⟩ :=
        find_free_spec (t.set x none) n (b.hash % n) x hm hx
          (by rw [slotAt_set _ _ _ _ hxl]; simp)
      have hsx1 : slotAt (t.set x none) x = none := by
        rw [slotAt_set _ _ _ _ hxl]; simp
      have hox : OccBefore (t.set x none) n (b.hash % n) x := by
        intro y hy hlt
        have hyx : x ≠ y := by
          rintro rfl
          omega
        rw [slotAt_set _ _ _ _ hxl]
        simp only [hyx, if_false]
        exact (hr x b hsx).2 y hy hlt
      have hpx : p = x := firstFree_unique _ n _ p x hm hp hx hsp hsx1 hocc hox
      have hback : (t.set x none).set x (some b) = t := by
        rw [List.set_set]
        exact set_slot_self t x _ hxl hsx
      have hx1 := succ_mod_lt n x hx
      have hsm := succ_mod_cases n x hx
      have c1 := cdist_cases n x e
      have c2 := cdist_cases n ((x + 1) % n) e
      simp only [hashset_remove_shift, hsx, hfind, hpx, hback]
      exact ih ((x + 1) % n) hx1 (by omega)

/-- Claim C20. Insert followed by remove restores the exact layout: in every reachable
state that does not contain `X` and is below its load threshold
(`4 * used < 3 * cap`, so the insert does not grow the table), `hashset_insert X`
returns 0 and `hashset_remove X` on the resulting state returns 0 and yields the
original state again: the same capacity, count and slot array, bucket for bucket. -/
theorem C20_insert_remove_restores (hs : hashset_t) (X : List UInt8) (hr : Reachable hs)
    (hX : hashset_contains hs X = .ok false) (hload : 4 * hs.used < 3 * hs.cap) :
    ∃ hs1, hashset_insert Alloc.all hs X = .ok (0, hs1) ∧
      hashset_remove hs1 X = .ok (0, hs) := by
  have hinv := reachable_inv hs hr
  have hcap : 0 < hs.cap := by omega
  have hc0 : hs.cap ≠ 0 := by omega
  have hnot : X ∉ keys hs.buckets := by
    rw [contains_spec hs X hinv hcap] at hX
    simpa using hX
  have hg : ¬ 3 * hs.cap ≤ 4 * hs.used := by omega
  rcases insert_loop_top hs X hinv hcap with ⟨hm, _⟩ | ⟨_, p, hp, hsp, hocc, hloop⟩
  · exact absurd hm hnot
  · have hpl : p < hs.buckets.length := hinv.len ▸ hp
    have hins : hashset_insert Alloc.all hs X =
        .ok (0, ⟨hs.buckets.set p (some ⟨X, X.length, hashset__hash X⟩), hs.cap,
          hs.used + 1⟩) := by
      simp [hashset_insert, HASHSET_LOAD_NUM, HASHSET_LOAD_DEN, hg, hashset_insert_body,
        hloop, hashset__bucket_new, Alloc.all]
    obtain ⟨nb, hnew, hinv1, _⟩ := insert_body_new Alloc.all hs X hinv hload hnot rfl rfl
    have hbody : hashset_insert Alloc.all hs X = hashset_insert_body Alloc.all hs X := by
      simp [hashset_insert, HASHSET_LOAD_NUM, HASHSET_LOAD_DEN, hg]
    rw [hbody, hnew] at hins
    simp only [Except.ok.injEq, Prod.mk.injEq, true_and, hashset_t.mk.injEq, and_true] at hins
    subst hins
    refine ⟨_, hbody.trans hnew, ?_⟩
    have hslot : slotAt (hs.buckets.set p (some ⟨X, X.length, hashset__hash X⟩)) p =
        some ⟨X, X.length, hashset__hash X⟩ := by
      rw [slotAt_set _ _ _ _ hpl]; simp
    obtain ⟨q, hsearch, hq⟩ := remove_search_top _ X hinv1 hcap
    rcases hq with ⟨hn, _⟩ | ⟨_, b, hqb, hbX⟩
    · exact absurd ((mem_keys_iff _ _).mpr ⟨p, _, hslot, rfl⟩) hn
    · have hqp : q = p := keys_unique_pos _ hinv1.nodup q p b _ hqb hslot hbX
      subst hqp
      have hback : (hs.buckets.set q (some ⟨X, X.length, hashset__hash X⟩)).set q none =
          hs.buckets := by
        rw [List.set_set]
        exact set_slot_self hs.buckets q none hpl hsp
      have hq1 := succ_mod_lt hs.cap q hp
      have c1 := cdist_cases hs.cap ((q + 1) % hs.cap) q
      have hshift := shift_id hs.buckets hs.cap q hinv.len hinv.reach hp hsp hs.cap
        ((q + 1) % hs.cap) hq1 (by omega)
      simp only [hashset_remove] at hsearch ⊢
      simp only [hc0, if_false, hsearch, hslot, hback, hshift]
      simp

/-- Witness for C20: `[84, 3]` has home slot 768 like the stored `[37, 0]` and lands
in slot 769, next to `[59, 12]` in its home slot 770; the removal walks over that
neighbour and puts it back. -/
theorem C20_witness :
    (hashset__hash [37, 0] % 1024 = 768 ∧ hashset__hash [84, 3] % 1024 = 768 ∧
      hashset__hash [59, 12] % 1024 = 770) ∧
    hashset_contains (exec [.insert [37, 0], .insert [59, 12]]) [84, 3] = .ok false ∧
    4 * (exec [.insert [37, 0], .insert [59, 12]]).used <
      3 * (exec [.insert [37, 0], .insert [59, 12]]).cap ∧
    ∃ hs1, hashset_insert Alloc.all (exec [.insert [37, 0], .insert [59, 12]]) [84, 3] =
        .ok (0, hs1) ∧
      hashset_remove hs1 [84, 3] = .ok (0, exec [.insert [37, 0], .insert [59, 12]]) :=
  ⟨by decide, by decide, by decide,
   C20_insert_remove_restores (exec [.insert [37, 0], .insert [59, 12]]) [84, 3]
     (reachable_exec _) (by decide) (by decide)⟩

end Hashset
